import Mathlib

set_option linter.unusedVariables false

namespace Preval

/-- Structural data values in the closure accepted by the serializability
validator: plain string-keyed records, ordered sequences, strings, finite
numbers (modelled as integers), booleans, and null. -/
inductive Jdata where
  | jnull : Jdata
  | jbool (b : Bool) : Jdata
  | jnum (n : Int) : Jdata
  | jstr (s : String) : Jdata
  | jarr (items : List Jdata) : Jdata
  | jrec (entries : List (String × Jdata)) : Jdata

/-- Decimal digit character for a digit value. -/
def digitChar : Nat → Char
  | 0 => '0'
  | 1 => '1'
  | 2 => '2'
  | 3 => '3'
  | 4 => '4'
  | 5 => '5'
  | 6 => '6'
  | 7 => '7'
  | 8 => '8'
  | 9 => '9'
  | _ => '0'

/-- Test for an ASCII decimal digit character. -/
def isDigitChar (c : Char) : Bool := 48 ≤ c.toNat && c.toNat ≤ 57

/-- Decimal digits of a natural number, most significant first, as emitted
by the structural text notation for integral numbers. -/
def natChars (n : Nat) : List Char :=
  if h : n < 10 then [digitChar n]
  else natChars (n / 10) ++ [digitChar (n % 10)]
decreasing_by exact Nat.div_lt_self (by omega) (by omega)

/-- Decimal notation for an integer, matching how the encoder prints an
integral number value. -/
def intChars (n : Int) : List Char :=
  if n < 0 then '-' :: natChars n.natAbs else natChars n.natAbs

/-- Split a longest run of leading digit characters from the input. -/
def grabDigits : List Char → List Char × List Char
  | [] => ([], [])
  | c :: cs =>
    if isDigitChar c then
      let p := grabDigits cs
      (c :: p.1, p.2)
    else ([], c :: cs)

/-- Accumulate the numeric value of a digit sequence, left to right. -/
def digitsVal (acc : Nat) : List Char → Nat
  | [] => acc
  | c :: cs => digitsVal (acc * 10 + (c.toNat - 48)) cs

/-- Parse a nonempty run of decimal digits into a natural number. -/
def parseNatCs (cs : List Char) : Option (Nat × List Char) :=
  match grabDigits cs with
  | ([], _) => none
  | (d :: ds, rest) => some (digitsVal 0 (d :: ds), rest)

/-- Parse an optionally negated decimal integer. -/
def parseIntCs (cs : List Char) : Option (Int × List Char) :=
  if cs.head? = some '-' then (parseNatCs cs.tail).map (fun p => (-(p.1 : Int), p.2))
  else (parseNatCs cs).map (fun p => ((p.1 : Int), p.2))

/-- After a printed value the remaining input may not begin with a digit,
so that number parsing stops at the value boundary. -/
def delimOk (cs : List Char) : Bool :=
  match cs.head? with
  | none => true
  | some c => !isDigitChar c

theorem digitChar_isDigit : ∀ d, d < 10 → isDigitChar (digitChar d) = true := by decide

theorem digitChar_toNat : ∀ d, d < 10 → (digitChar d).toNat = 48 + d := by decide

theorem natChars_ne_nil (n : Nat) : natChars n ≠ [] := by
  rw [natChars]
  split
  · simp
  · simp

theorem natChars_digits (n : Nat) : ∀ c ∈ natChars n, isDigitChar c = true := by
  induction n using Nat.strong_induction_on with
  | _ n ih =>
    rw [natChars]
    split
    · next h =>
      intro c hc
      simp only [List.mem_singleton] at hc
      subst hc
      exact digitChar_isDigit n h
    · next h =>
      intro c hc
      simp only [List.mem_append, List.mem_singleton] at hc
      rcases hc with hc | hc
      · exact ih (n / 10) (Nat.div_lt_self (by omega) (by omega)) c hc
      · subst hc
        exact digitChar_isDigit (n % 10) (Nat.mod_lt _ (by omega))

theorem grabDigits_append (ds rest : List Char) (hds : ∀ c ∈ ds, isDigitChar c = true)
    (hrest : delimOk rest = true) : grabDigits (ds ++ rest) = (ds, rest) := by
  induction ds with
  | nil =>
    simp only [List.nil_append]
    cases rest with
    | nil => rfl
    | cons c cs =>
      simp only [delimOk, List.head?_cons, Bool.not_eq_true'] at hrest
      simp [grabDigits, hrest]
  | cons c cs ih =>
    have hc : isDigitChar c = true := hds c (by simp)
    simp only [List.cons_append, grabDigits, hc, if_true]
    rw [show cs.append rest = cs ++ rest from rfl, ih (fun x hx => hds x (by simp [hx]))]

theorem digitsVal_append (l1 l2 : List Char) (acc : Nat) :
    digitsVal acc (l1 ++ l2) = digitsVal (digitsVal acc l1) l2 := by
  induction l1 generalizing acc with
  | nil => rfl
  | cons c cs ih =>
    rw [List.cons_append]
    rw [show digitsVal acc (c :: (cs ++ l2)) = digitsVal (acc * 10 + (c.toNat - 48)) (cs ++ l2) from rfl]
    rw [show digitsVal acc (c :: cs) = digitsVal (acc * 10 + (c.toNat - 48)) cs from rfl]
    exact ih _

theorem digitsVal_natChars (n : Nat) : digitsVal 0 (natChars n) = n := by
  induction n using Nat.strong_induction_on with
  | _ n ih =>
    rw [natChars]
    split
    · next h =>
      show 0 * 10 + ((digitChar n).toNat - 48) = n
      rw [digitChar_toNat n h]
      omega
    · next h =>
      rw [digitsVal_append, ih (n / 10) (Nat.div_lt_self (by omega) (by omega))]
      show (n / 10) * 10 + ((digitChar (n % 10)).toNat - 48) = n
      rw [digitChar_toNat (n % 10) (Nat.mod_lt _ (by omega))]
      omega

theorem parseNatCs_natChars (n : Nat) (rest : List Char) (hrest : delimOk rest = true) :
    parseNatCs (natChars n ++ rest) = some (n, rest) := by
  have htd := grabDigits_append (natChars n) rest (natChars_digits n) hrest
  obtain ⟨d, ds, hcons⟩ : ∃ d ds, natChars n = d :: ds := by
    cases hn : natChars n with
    | nil => exact absurd hn (natChars_ne_nil n)
    | cons d ds => exact ⟨d, ds, rfl⟩
  rw [parseNatCs, htd, hcons]
  show some (digitsVal 0 (d :: ds), rest) = some (n, rest)
  rw [← hcons, digitsVal_natChars n]

theorem parseIntCs_intChars (n : Int) (rest : List Char) (hrest : delimOk rest = true) :
    parseIntCs (intChars n ++ rest) = some (n, rest) := by
  by_cases hn : n < 0
  · rw [intChars, if_pos hn, List.cons_append, parseIntCs]
    rw [if_pos (show ('-' :: (natChars n.natAbs ++ rest)).head? = some '-' from rfl)]
    rw [List.tail_cons, parseNatCs_natChars _ _ hrest]
    show some (-(n.natAbs : Int), rest) = some (n, rest)
    rw [show (-(n.natAbs : Int)) = n by omega]
  · rw [intChars, if_neg hn, parseIntCs]
    have hhead : ¬ ((natChars n.natAbs ++ rest).head? = some '-') := by
      cases hc : natChars n.natAbs with
      | nil => exact absurd hc (natChars_ne_nil _)
      | cons d ds =>
        have hd : isDigitChar d = true := by
          have hall := natChars_digits n.natAbs
          rw [hc] at hall
          exact hall d (by simp)
        simp only [hc, List.cons_append, List.head?_cons, Option.some_inj]
        intro hdc
        rw [hdc] at hd
        exact absurd hd (by decide)
    rw [if_neg hhead, parseNatCs_natChars _ _ hrest]
    show some ((n.natAbs : Int), rest) = some (n, rest)
    rw [show ((n.natAbs : Int)) = n by omega]

/-- Hexadecimal digit character, lowercase, as JSON.stringify emits in
escape sequences for control characters. -/
def hexChar : Nat → Char
  | 0 => '0'
  | 1 => '1'
  | 2 => '2'
  | 3 => '3'
  | 4 => '4'
  | 5 => '5'
  | 6 => '6'
  | 7 => '7'
  | 8 => '8'
  | 9 => '9'
  | 10 => 'a'
  | 11 => 'b'
  | 12 => 'c'
  | 13 => 'd'
  | 14 => 'e'
  | 15 => 'f'
  | _ => '0'

/-- Value of a hexadecimal digit character, either case. -/
def hexDigitVal (c : Char) : Option Nat :=
  if 48 ≤ c.toNat ∧ c.toNat ≤ 57 then some (c.toNat - 48)
  else if 97 ≤ c.toNat ∧ c.toNat ≤ 102 then some (c.toNat - 87)
  else if 65 ≤ c.toNat ∧ c.toNat ≤ 70 then some (c.toNat - 55)
  else none

/-- JSON escape of one character, following the quoting rules of
JSON.stringify: quote and backslash get two-character escapes, the five
short-named control characters get their short escapes, any other control
character gets a lowercase four-digit unicode escape, and every other
character is emitted verbatim. -/
def escapeChar (c : Char) : List Char :=
  if c = '"' then ['\\', '"']
  else if c = '\\' then ['\\', '\\']
  else if c = '\x08' then ['\\', 'b']
  else if c = '\t' then ['\\', 't']
  else if c = '\n' then ['\\', 'n']
  else if c = '\x0c' then ['\\', 'f']
  else if c = '\r' then ['\\', 'r']
  else if c.toNat < 32 then ['\\', 'u', '0', '0', hexChar (c.toNat / 16), hexChar (c.toNat % 16)]
  else [c]

/-- Escape every character of a string body in order. -/
def escList : List Char → List Char
  | [] => []
  | c :: rest => escapeChar c ++ escList rest

/-- Quoted string literal for a string value, exactly as JSON.stringify
prints it: opening quote, escaped body, closing quote. -/
def strLitChars (s : String) : List Char := '"' :: escList s.toList ++ ['"']

/-- Parse the body of a quoted string literal after the opening quote,
returning the decoded characters and the input after the closing quote. -/
def parseStrBody (cs : List Char) : Option (List Char × List Char) :=
  match cs with
  | [] => none
  | c :: rest =>
    if c = '"' then some ([], rest)
    else if c = '\\' then
      match rest with
      | [] => none
      | e :: r =>
        if e = '"' then (parseStrBody r).map (fun p => ('"' :: p.1, p.2))
        else if e = '\\' then (parseStrBody r).map (fun p => ('\\' :: p.1, p.2))
        else if e = '/' then (parseStrBody r).map (fun p => ('/' :: p.1, p.2))
        else if e = 'b' then (parseStrBody r).map (fun p => ('\x08' :: p.1, p.2))
        else if e = 't' then (parseStrBody r).map (fun p => ('\t' :: p.1, p.2))
        else if e = 'n' then (parseStrBody r).map (fun p => ('\n' :: p.1, p.2))
        else if e = 'f' then (parseStrBody r).map (fun p => ('\x0c' :: p.1, p.2))
        else if e = 'r' then (parseStrBody r).map (fun p => ('\r' :: p.1, p.2))
        else if e = 'u' then
          match r with
          | h1 :: h2 :: h3 :: h4 :: r2 =>
            (hexDigitVal h1).bind fun v1 =>
            (hexDigitVal h2).bind fun v2 =>
            (hexDigitVal h3).bind fun v3 =>
            (hexDigitVal h4).bind fun v4 =>
            (parseStrBody r2).map
              (fun p => (Char.ofNat (((v1 * 16 + v2) * 16 + v3) * 16 + v4) :: p.1, p.2))
          | _ => none
        else none
    else (parseStrBody rest).map (fun p => (c :: p.1, p.2))
termination_by structural cs

/-- Parse a full quoted string literal, opening quote included. -/
def parseStrLit (cs : List Char) : Option (List Char × List Char) :=
  match cs with
  | [] => none
  | c :: rest => if c = '"' then parseStrBody rest else none

theorem hexDigitVal_hexChar : ∀ d, d < 16 → hexDigitVal (hexChar d) = some d := by decide

theorem parseStrBody_cons (c : Char) (rest : List Char) :
    parseStrBody (c :: rest) =
      if c = '"' then some ([], rest)
      else if c = '\\' then
        match rest with
        | [] => none
        | e :: r =>
          if e = '"' then (parseStrBody r).map (fun p => ('"' :: p.1, p.2))
          else if e = '\\' then (parseStrBody r).map (fun p => ('\\' :: p.1, p.2))
          else if e = '/' then (parseStrBody r).map (fun p => ('/' :: p.1, p.2))
          else if e = 'b' then (parseStrBody r).map (fun p => ('\x08' :: p.1, p.2))
          else if e = 't' then (parseStrBody r).map (fun p => ('\t' :: p.1, p.2))
          else if e = 'n' then (parseStrBody r).map (fun p => ('\n' :: p.1, p.2))
          else if e = 'f' then (parseStrBody r).map (fun p => ('\x0c' :: p.1, p.2))
          else if e = 'r' then (parseStrBody r).map (fun p => ('\r' :: p.1, p.2))
          else if e = 'u' then
            match r with
            | h1 :: h2 :: h3 :: h4 :: r2 =>
              (hexDigitVal h1).bind fun v1 =>
              (hexDigitVal h2).bind fun v2 =>
              (hexDigitVal h3).bind fun v3 =>
              (hexDigitVal h4).bind fun v4 =>
              (parseStrBody r2).map
                (fun p => (Char.ofNat (((v1 * 16 + v2) * 16 + v3) * 16 + v4) :: p.1, p.2))
            | _ => none
          else none
      else (parseStrBody rest).map (fun p => (c :: p.1, p.2)) := by
  rw [parseStrBody.eq_def]

theorem escape_step (c : Char) (tail : List Char) :
    parseStrBody (escapeChar c ++ tail) =
      (parseStrBody tail).map (fun p => (c :: p.1, p.2)) := by
  by_cases h1 : c = '"'
  · subst h1; simp [escapeChar, parseStrBody_cons]
  by_cases h2 : c = '\\'
  · subst h2; simp [escapeChar, parseStrBody_cons]
  by_cases h3 : c = '\x08'
  · subst h3; simp [escapeChar, parseStrBody_cons]
  by_cases h4 : c = '\t'
  · subst h4; simp [escapeChar, parseStrBody_cons]
  by_cases h5 : c = '\n'
  · subst h5; simp [escapeChar, parseStrBody_cons]
  by_cases h6 : c = '\x0c'
  · subst h6; simp [escapeChar, parseStrBody_cons]
  by_cases h7 : c = '\r'
  · subst h7; simp [escapeChar, parseStrBody_cons]
  by_cases h8 : c.toNat < 32
  · have e0 : hexDigitVal '0' = some 0 := hexDigitVal_hexChar 0 (by omega)
    have e1 : hexDigitVal (hexChar (c.toNat / 16)) = some (c.toNat / 16) := hexDigitVal_hexChar _ (by omega)
    have e2 : hexDigitVal (hexChar (c.toNat % 16)) = some (c.toNat % 16) := hexDigitVal_hexChar _ (by omega)
    have e5 : Char.ofNat (c.toNat / 16 * 16 + c.toNat % 16) = c := by
      rw [show c.toNat / 16 * 16 + c.toNat % 16 = c.toNat by omega, Char.ofNat_toNat]
    rw [escapeChar, if_neg h1, if_neg h2, if_neg h3, if_neg h4, if_neg h5, if_neg h6,
      if_neg h7, if_pos h8]
    simp only [List.cons_append, List.nil_append]
    rw [parseStrBody_cons]
    rw [if_neg (show ¬ ('\\' : Char) = '"' from by decide), if_pos rfl]
    simp only [e0, e1, e2]
    simp [e5]
  · rw [escapeChar, if_neg h1, if_neg h2, if_neg h3, if_neg h4, if_neg h5, if_neg h6,
      if_neg h7, if_neg h8]
    rw [List.cons_append, List.nil_append, parseStrBody_cons, if_neg h1, if_neg h2]

theorem parseStrBody_escList (cs rest : List Char) :
    parseStrBody (escList cs ++ '"' :: rest) = some (cs, rest) := by
  induction cs with
  | nil =>
    rw [escList, List.nil_append, parseStrBody_cons, if_pos rfl]
  | cons c cs ih =>
    rw [escList, List.append_assoc, escape_step, ih]
    rfl

theorem parseStrLit_strLitChars (s : String) (rest : List Char) :
    parseStrLit (strLitChars s ++ rest) = some (s.toList, rest) := by
  have h : parseStrLit (strLitChars s ++ rest)
      = parseStrBody ((escList s.toList ++ ['"']) ++ rest) := by
    rw [strLitChars, List.cons_append]
    rfl
  rw [h, List.append_assoc]
  exact parseStrBody_escList s.toList rest

mutual
/-- Structural text notation for a value, exactly as JSON.stringify prints
it with no added spacing: keyword literals, decimal numbers, quoted
strings, and bracketed comma-separated sequences and records in encounter
order. -/
def jsonChars (v : Jdata) : List Char :=
  match v with
  | .jnull => ['n', 'u', 'l', 'l']
  | .jbool true => ['t', 'r', 'u', 'e']
  | .jbool false => ['f', 'a', 'l', 's', 'e']
  | .jnum n => intChars n
  | .jstr s => strLitChars s
  | .jarr xs => '[' :: (arrChars xs ++ [']'])
  | .jrec fs => '\x7b' :: (objChars fs ++ ['\x7d'])

/-- Comma-separated encoding of the elements of a sequence. -/
def arrChars (xs : List Jdata) : List Char :=
  match xs with
  | [] => []
  | [x] => jsonChars x
  | x :: y :: ys => jsonChars x ++ ',' :: arrChars (y :: ys)

/-- Comma-separated encoding of the fields of a record, each a quoted key,
a colon and the field value. -/
def objChars (fs : List (String × Jdata)) : List Char :=
  match fs with
  | [] => []
  | [(k, v)] => strLitChars k ++ ':' :: jsonChars v
  | (k, v) :: g :: gs => strLitChars k ++ ':' :: jsonChars v ++ ',' :: objChars (g :: gs)
end

/-- Consume an expected literal run of characters. -/
def dropLit : List Char → List Char → Option (List Char)
  | [], cs => some cs
  | _ :: _, [] => none
  | p :: ps, c :: cs => if c = p then dropLit ps cs else none

mutual
/-- Fuel-indexed parser for one value of the structural text notation; the
fuel bounds the nesting recursion and any encoder output is parsed once
the fuel exceeds the encoded node count. -/
def parseJsonF (fuel : Nat) (cs : List Char) : Option (Jdata × List Char) :=
  match fuel with
  | 0 => none
  | fuel + 1 =>
    match cs with
    | [] => none
    | c :: rest =>
      if c = 'n' then (dropLit ['u', 'l', 'l'] rest).map (fun r => (.jnull, r))
      else if c = 't' then (dropLit ['r', 'u', 'e'] rest).map (fun r => (.jbool true, r))
      else if c = 'f' then (dropLit ['a', 'l', 's', 'e'] rest).map (fun r => (.jbool false, r))
      else if c = '"' then (parseStrBody rest).map (fun p => (.jstr (String.mk p.1), p.2))
      else if c = '[' then
        if rest.head? = some ']' then some (.jarr [], rest.tail)
        else (parseElemsF fuel rest).map (fun p => (.jarr p.1, p.2))
      else if c = '\x7b' then
        if rest.head? = some '\x7d' then some (.jrec [], rest.tail)
        else (parseMembersF fuel rest).map (fun p => (.jrec p.1, p.2))
      else (parseIntCs (c :: rest)).map (fun p => (.jnum p.1, p.2))

/-- Fuel-indexed parser for one or more comma-separated sequence elements
through the closing bracket. -/
def parseElemsF (fuel : Nat) (cs : List Char) : Option (List Jdata × List Char) :=
  match fuel with
  | 0 => none
  | fuel + 1 =>
    (parseJsonF fuel cs).bind fun p =>
      if p.2.head? = some ',' then
        (parseElemsF fuel p.2.tail).map (fun q => (p.1 :: q.1, q.2))
      else if p.2.head? = some ']' then some ([p.1], p.2.tail)
      else none

/-- Fuel-indexed parser for one or more record members through the closing
brace. -/
def parseMembersF (fuel : Nat) (cs : List Char) : Option (List (String × Jdata) × List Char) :=
  match fuel with
  | 0 => none
  | fuel + 1 =>
    match cs with
    | [] => none
    | c :: rest =>
      if c = '"' then
        (parseStrBody rest).bind fun kp =>
          if kp.2.head? = some ':' then
            (parseJsonF fuel kp.2.tail).bind fun vp =>
              if vp.2.head? = some ',' then
                (parseMembersF fuel vp.2.tail).map
                  (fun q => ((String.mk kp.1, vp.1) :: q.1, q.2))
              else if vp.2.head? = some '\x7d' then some ([(String.mk kp.1, vp.1)], vp.2.tail)
              else none
          else none
      else none
end

mutual
/-- Fuel sufficient to parse the encoding of a value. -/
def FJ : Jdata → Nat
  | .jnull => 1
  | .jbool _ => 1
  | .jnum _ => 1
  | .jstr _ => 1
  | .jarr xs => 1 + FE xs
  | .jrec fs => 1 + FM fs

/-- Fuel sufficient to parse an encoded element list. -/
def FE : List Jdata → Nat
  | [] => 0
  | x :: xs => 1 + FJ x + FE xs

/-- Fuel sufficient to parse an encoded member list. -/
def FM : List (String × Jdata) → Nat
  | [] => 0
  | (_, v) :: fs => 1 + FJ v + FM fs
end

theorem delimOk_cons (c : Char) (r : List Char) : delimOk (c :: r) = !isDigitChar c := rfl

theorem parseJsonF_succ_cons (fuel : Nat) (c : Char) (rest : List Char) :
    parseJsonF (fuel + 1) (c :: rest) =
      (if c = 'n' then (dropLit ['u', 'l', 'l'] rest).map (fun r => (.jnull, r))
      else if c = 't' then (dropLit ['r', 'u', 'e'] rest).map (fun r => (.jbool true, r))
      else if c = 'f' then (dropLit ['a', 'l', 's', 'e'] rest).map (fun r => (.jbool false, r))
      else if c = '"' then (parseStrBody rest).map (fun p => (.jstr (String.mk p.1), p.2))
      else if c = '[' then
        if rest.head? = some ']' then some (.jarr [], rest.tail)
        else (parseElemsF fuel rest).map (fun p => (.jarr p.1, p.2))
      else if c = '\x7b' then
        if rest.head? = some '\x7d' then some (.jrec [], rest.tail)
        else (parseMembersF fuel rest).map (fun p => (.jrec p.1, p.2))
      else (parseIntCs (c :: rest)).map (fun p => (.jnum p.1, p.2))) := by
  rw [parseJsonF.eq_def]

theorem parseElemsF_succ (fuel : Nat) (cs : List Char) :
    parseElemsF (fuel + 1) cs =
      ((parseJsonF fuel cs).bind fun p =>
        if p.2.head? = some ',' then
          (parseElemsF fuel p.2.tail).map (fun q => (p.1 :: q.1, q.2))
        else if p.2.head? = some ']' then some ([p.1], p.2.tail)
        else none) := by
  rw [parseElemsF.eq_def]

theorem parseMembersF_succ_cons (fuel : Nat) (c : Char) (rest : List Char) :
    parseMembersF (fuel + 1) (c :: rest) =
      (if c = '"' then
        (parseStrBody rest).bind fun kp =>
          if kp.2.head? = some ':' then
            (parseJsonF fuel kp.2.tail).bind fun vp =>
              if vp.2.head? = some ',' then
                (parseMembersF fuel vp.2.tail).map
                  (fun q => ((String.mk kp.1, vp.1) :: q.1, q.2))
              else if vp.2.head? = some '\x7d' then some ([(String.mk kp.1, vp.1)], vp.2.tail)
              else none
          else none
      else none) := by
  rw [parseMembersF.eq_def]

theorem FJ_pos (v : Jdata) : 1 ≤ FJ v := by
  cases v <;> simp [FJ]

theorem jsonChars_head (v : Jdata) : ∃ c t, jsonChars v = c :: t ∧
    (c = 'n' ∨ c = 't' ∨ c = 'f' ∨ c = '"' ∨ c = '[' ∨ c = '\x7b' ∨ c = '-' ∨
      isDigitChar c = true) := by
  cases v with
  | jnull => exact ⟨'n', _, rfl, by simp⟩
  | jbool b =>
    cases b with
    | false => exact ⟨'f', _, rfl, by simp⟩
    | true => exact ⟨'t', _, rfl, by simp⟩
  | jnum n =>
    by_cases hn : n < 0
    · refine ⟨'-', natChars n.natAbs, ?_, by simp⟩
      simp [jsonChars, intChars, hn]
    · obtain ⟨d, ds, hcons⟩ : ∃ d ds, natChars n.natAbs = d :: ds := by
        cases hc : natChars n.natAbs with
        | nil => exact absurd hc (natChars_ne_nil _)
        | cons d ds => exact ⟨d, ds, rfl⟩
      refine ⟨d, ds, ?_, ?_⟩
      · simp [jsonChars, intChars, hn, hcons]
      · have hd : isDigitChar d = true := by
          have hall := natChars_digits n.natAbs
          rw [hcons] at hall
          exact hall d (by simp)
        simp [hd]
  | jstr s => exact ⟨'"', _, rfl, by simp⟩
  | jarr xs => exact ⟨'[', _, rfl, by simp⟩
  | jrec fs => exact ⟨'\x7b', _, rfl, by simp⟩

theorem intChars_head (n : Int) : ∃ c t, intChars n = c :: t ∧
    (c = '-' ∨ isDigitChar c = true) := by
  by_cases hn : n < 0
  · exact ⟨'-', natChars n.natAbs, by simp [intChars, hn], by simp⟩
  · obtain ⟨d, ds, hcons⟩ : ∃ d ds, natChars n.natAbs = d :: ds := by
      cases hc : natChars n.natAbs with
      | nil => exact absurd hc (natChars_ne_nil _)
      | cons d ds => exact ⟨d, ds, rfl⟩
    refine ⟨d, ds, by simp [intChars, hn, hcons], Or.inr ?_⟩
    have hall := natChars_digits n.natAbs
    rw [hcons] at hall
    exact hall d (by simp)

theorem num_head_cases (c : Char) (h : c = '-' ∨ isDigitChar c = true) :
    ¬c = 'n' ∧ ¬c = 't' ∧ ¬c = 'f' ∧ ¬c = '"' ∧ ¬c = '[' ∧ ¬c = '\x7b' := by
  rcases h with h | h
  · subst h
    exact ⟨by decide, by decide, by decide, by decide, by decide, by decide⟩
  · have hb : 48 ≤ c.toNat ∧ c.toNat ≤ 57 := by
      simpa [isDigitChar, Bool.and_eq_true, decide_eq_true_eq] using h
    refine ⟨?_, ?_, ?_, ?_, ?_, ?_⟩ <;> intro he <;> subst he <;>
      exact absurd hb (by decide)

theorem head_ne_rbracket (c : Char)
    (h : c = 'n' ∨ c = 't' ∨ c = 'f' ∨ c = '"' ∨ c = '[' ∨ c = '\x7b' ∨ c = '-' ∨
      isDigitChar c = true) : ¬c = ']' := by
  rcases h with h | h | h | h | h | h | h | h
  · subst h; decide
  · subst h; decide
  · subst h; decide
  · subst h; decide
  · subst h; decide
  · subst h; decide
  · subst h; decide
  · have hb : 48 ≤ c.toNat ∧ c.toNat ≤ 57 := by
      simpa [isDigitChar, Bool.and_eq_true, decide_eq_true_eq] using h
    intro he
    subst he
    exact absurd hb (by decide)

theorem arrChars_cons_shape (x : Jdata) (xs : List Jdata) (c0 : Char) (t0 : List Char)
    (h0 : jsonChars x = c0 :: t0) : ∃ t2, arrChars (x :: xs) = c0 :: t2 := by
  cases xs with
  | nil => exact ⟨t0, by simp [arrChars, h0]⟩
  | cons y ys => exact ⟨t0 ++ ',' :: arrChars (y :: ys), by simp [arrChars, h0]⟩

mutual
theorem rt_json (fuel : Nat) (v : Jdata) (rest : List Char)
    (hf : FJ v ≤ fuel) (hd : delimOk rest = true) :
    parseJsonF fuel (jsonChars v ++ rest) = some (v, rest) := by
  obtain ⟨f, rfl⟩ : ∃ f, fuel = f + 1 := by
    have := FJ_pos v
    cases fuel with
    | zero => omega
    | succ f => exact ⟨f, rfl⟩
  cases v with
  | jnull =>
    simp only [jsonChars, List.cons_append, List.nil_append]
    rw [parseJsonF_succ_cons]
    simp [dropLit]
  | jbool b =>
    cases b with
    | true =>
      simp only [jsonChars, List.cons_append, List.nil_append]
      rw [parseJsonF_succ_cons]
      simp [dropLit]
    | false =>
      simp only [jsonChars, List.cons_append, List.nil_append]
      rw [parseJsonF_succ_cons]
      simp [dropLit]
  | jnum n =>
    obtain ⟨c, t, heq, hcase⟩ := intChars_head n
    obtain ⟨g1, g2, g3, g4, g5, g6⟩ := num_head_cases c hcase
    simp only [jsonChars]
    rw [heq, List.cons_append, parseJsonF_succ_cons]
    rw [if_neg g1, if_neg g2, if_neg g3, if_neg g4, if_neg g5, if_neg g6]
    rw [← List.cons_append, ← heq, parseIntCs_intChars n rest hd]
    rfl
  | jstr s =>
    have hs : String.mk s.toList = s := rfl
    simp only [jsonChars, strLitChars, List.cons_append, List.append_assoc,
      List.singleton_append]
    rw [parseJsonF_succ_cons]
    simp only [List.nil_append]
    simp [parseStrBody_escList s.toList rest, hs]
    exact ⟨s.toList, parseStrBody_escList s.toList rest, rfl⟩
  | jarr xs =>
    cases xs with
    | nil =>
      simp only [jsonChars, arrChars, List.nil_append, List.cons_append,
        List.singleton_append]
      rw [parseJsonF_succ_cons]
      simp
    | cons x xs =>
      obtain ⟨c0, t0, h0, hc0⟩ := jsonChars_head x
      obtain ⟨t2, harr⟩ := arrChars_cons_shape x xs c0 t0 h0
      have hne : ¬((arrChars (x :: xs) ++ ']' :: rest).head? = some ']') := by
        rw [harr]
        simp only [List.cons_append, List.head?_cons, Option.some_inj]
        exact head_ne_rbracket c0 hc0
      have helems := rt_elems f (x :: xs) rest (by simp)
        (by simp only [FJ] at hf; omega)
      simp only [jsonChars, List.cons_append, List.append_assoc, List.singleton_append]
      rw [parseJsonF_succ_cons]
      simp only [List.append_assoc, List.singleton_append] at helems ⊢
      simp [hne, helems]
      constructor
      · rw [harr]
        simp only [List.head?_cons, Option.some_inj]
        exact head_ne_rbracket c0 hc0
      · rw [harr]
        simp
  | jrec fs =>
    cases fs with
    | nil =>
      simp only [jsonChars, objChars, List.nil_append, List.cons_append,
        List.singleton_append]
      rw [parseJsonF_succ_cons]
      simp
    | cons g gs =>
      obtain ⟨k, w⟩ := g
      have hne : ¬((objChars ((k, w) :: gs) ++ '\x7d' :: rest).head? = some '\x7d') := by
        cases gs with
        | nil =>
          simp [objChars, strLitChars]
        | cons g2 gs2 =>
          simp [objChars, strLitChars]
      have hmem := rt_members f ((k, w) :: gs) rest (by simp)
        (by simp only [FJ] at hf; omega)
      simp only [jsonChars, List.cons_append, List.append_assoc, List.singleton_append]
      rw [parseJsonF_succ_cons]
      simp only [List.append_assoc, List.singleton_append] at hmem ⊢
      simp [hne, hmem]
      constructor
      · cases gs with
        | nil => simp [objChars, strLitChars]
        | cons g2 gs2 => simp [objChars, strLitChars]
      · cases gs with
        | nil => simp [objChars, strLitChars]
        | cons g2 gs2 => simp [objChars, strLitChars]
termination_by (fuel, 0)

theorem rt_elems (fuel : Nat) (xs : List Jdata) (rest : List Char)
    (hne : xs ≠ []) (hf : FE xs ≤ fuel) :
    parseElemsF fuel (arrChars xs ++ ']' :: rest) = some (xs, rest) := by
  obtain ⟨x, xs', rfl⟩ : ∃ x xs', xs = x :: xs' := by
    cases xs with
    | nil => exact absurd rfl hne
    | cons x xs' => exact ⟨x, xs', rfl⟩
  obtain ⟨f, rfl⟩ : ∃ f, fuel = f + 1 := by
    simp only [FE] at hf
    cases fuel with
    | zero => omega
    | succ f => exact ⟨f, rfl⟩
  rw [parseElemsF_succ]
  cases xs' with
  | nil =>
    have hj := rt_json f x (']' :: rest)
      (by simp only [FE] at hf; omega) (by rw [delimOk_cons]; decide)
    simp only [arrChars]
    rw [hj]
    simp
  | cons y ys =>
    have hj := rt_json f x (',' :: (arrChars (y :: ys) ++ ']' :: rest))
      (by simp only [FE] at hf; omega) (by rw [delimOk_cons]; decide)
    have hrec := rt_elems f (y :: ys) rest (by simp)
      (by simp only [FE] at hf ⊢; omega)
    simp only [arrChars, List.append_assoc, List.cons_append]
    rw [hj]
    simp [hrec]
termination_by (fuel, 1)

theorem rt_members (fuel : Nat) (fs : List (String × Jdata)) (rest : List Char)
    (hne : fs ≠ []) (hf : FM fs ≤ fuel) :
    parseMembersF fuel (objChars fs ++ '\x7d' :: rest) = some (fs, rest) := by
  obtain ⟨k, v, fs', rfl⟩ : ∃ k v fs', fs = (k, v) :: fs' := by
    cases fs with
    | nil => exact absurd rfl hne
    | cons g gs =>
      obtain ⟨k, v⟩ := g
      exact ⟨k, v, gs, rfl⟩
  obtain ⟨f, rfl⟩ : ∃ f, fuel = f + 1 := by
    simp only [FM] at hf
    cases fuel with
    | zero => omega
    | succ f => exact ⟨f, rfl⟩
  have hs : String.mk k.toList = k := rfl
  cases fs' with
  | nil =>
    have hj := rt_json f v ('\x7d' :: rest)
      (by simp only [FM] at hf; omega) (by rw [delimOk_cons]; decide)
    simp only [objChars, strLitChars, List.cons_append, List.append_assoc,
      List.singleton_append, List.nil_append]
    rw [parseMembersF_succ_cons]
    rw [if_pos rfl]
    rw [parseStrBody_escList k.toList (':' :: (jsonChars v ++ '\x7d' :: rest))]
    simp only [Option.some_bind, List.head?_cons, List.tail_cons, if_pos rfl]
    rw [hj]
    simp [hs]
  | cons g2 gs2 =>
    have hj := rt_json f v (',' :: (objChars (g2 :: gs2) ++ '\x7d' :: rest))
      (by simp only [FM] at hf; omega) (by rw [delimOk_cons]; decide)
    have hrec := rt_members f (g2 :: gs2) rest (by simp)
      (by simp only [FM] at hf ⊢; omega)
    simp only [objChars, strLitChars, List.cons_append, List.append_assoc,
      List.singleton_append, List.nil_append]
    rw [parseMembersF_succ_cons]
    rw [if_pos rfl]
    rw [parseStrBody_escList k.toList
      (':' :: (jsonChars v ++ ',' :: (objChars (g2 :: gs2) ++ '\x7d' :: rest)))]
    simp only [Option.some_bind, List.head?_cons, List.tail_cons, if_pos rfl]
    rw [hj]
    simp [hs, hrec]
termination_by (fuel, 1)
end

mutual
theorem FJ_le_len (v : Jdata) : FJ v ≤ (jsonChars v).length := by
  cases v with
  | jnull => simp [FJ, jsonChars]
  | jbool b => cases b <;> simp [FJ, jsonChars]
  | jnum n =>
    obtain ⟨c, t, heq, _⟩ := intChars_head n
    simp [FJ, jsonChars, heq]
  | jstr s => simp [FJ, jsonChars, strLitChars]
  | jarr xs =>
    have h := FE_le_len xs
    simp only [FJ, jsonChars, List.length_cons, List.length_append]
    simp only [List.length_cons, List.length_nil]
    omega
  | jrec fs =>
    have h := FM_le_len fs
    simp only [FJ, jsonChars, List.length_cons, List.length_append]
    simp only [List.length_cons, List.length_nil]
    omega

theorem FE_le_len (xs : List Jdata) : FE xs ≤ (arrChars xs).length + 1 := by
  cases xs with
  | nil => simp [FE, arrChars]
  | cons x xs =>
    cases xs with
    | nil =>
      have h := FJ_le_len x
      simp only [FE, arrChars, List.length_nil]
      omega
    | cons y ys =>
      have h1 := FJ_le_len x
      have h2 := FE_le_len (y :: ys)
      simp only [FE, arrChars, List.length_append, List.length_cons]
      simp only [FE] at h2
      omega

theorem FM_le_len (fs : List (String × Jdata)) : FM fs ≤ (objChars fs).length + 1 := by
  cases fs with
  | nil => simp [FM, objChars]
  | cons g gs =>
    obtain ⟨k, v⟩ := g
    cases gs with
    | nil =>
      have h := FJ_le_len v
      simp only [FM, objChars, List.length_append, List.length_cons, List.length_nil]
      omega
    | cons g2 gs2 =>
      have h1 := FJ_le_len v
      have h2 := FM_le_len (g2 :: gs2)
      simp only [FM, objChars, List.length_append, List.length_cons]
      simp only [FM] at h2
      omega
end

theorem dropLit_self (p r : List Char) : dropLit p (p ++ r) = some r := by
  induction p with
  | nil => rfl
  | cons c cs ih => simp [dropLit, ih]

/-- Fixed leading text of the emitted fragment. -/
def fragPre : String := "module.exports = JSON.parse("

/-- Embeddable fragment built around an encoded payload: an assignment
statement whose right side re-parses one embedded quoted string literal,
exactly the shape the loader returns. -/
def mkFragment (payload : String) : String :=
  fragPre ++ String.mk (strLitChars payload) ++ ")"

/-- Decode an emitted fragment: strip the fixed wrapper, read the embedded
quoted string literal back into text, then parse that text as structural
data. -/
def decodeFragment (frag : String) : Option Jdata :=
  (dropLit fragPre.toList frag.toList).bind fun cs =>
  (parseStrLit cs).bind fun p =>
  if p.2 = [')'] then
    (parseJsonF (p.1.length + 1) p.1).bind fun q =>
      if q.2 = [] then some q.1 else none
  else none

theorem decodeFragment_mkFragment (v : Jdata) :
    decodeFragment (mkFragment (String.mk (jsonChars v))) = some v := by
  have hdata : (mkFragment (String.mk (jsonChars v))).toList
      = fragPre.toList ++ (strLitChars (String.mk (jsonChars v)) ++ [')']) := by
    show (fragPre ++ String.mk (strLitChars (String.mk (jsonChars v))) ++ ")").data
      = fragPre.data ++ (strLitChars (String.mk (jsonChars v)) ++ [')'])
    rw [String.data_append, String.data_append]
    rfl
  rw [decodeFragment, hdata, dropLit_self]
  simp only [Option.some_bind]
  rw [parseStrLit_strLitChars (String.mk (jsonChars v)) [')']]
  simp only [Option.some_bind, if_pos rfl]
  have htl : (String.mk (jsonChars v)).toList = jsonChars v := rfl
  rw [htl]
  have hrt := rt_json ((jsonChars v).length + 1) v []
    (by have := FJ_le_len v; omega) (by rfl)
  rw [List.append_nil] at hrt
  rw [hrt]
  simp

/-- Reason value carried by a throw or rejection during module execution:
an object bearing a stack property (an Error instance), or any other
thrown value kept as its display text. -/
inductive Thrown where
  | errObj (name msg stack : String)
  | rawValue (desc : String)

/-- Display text of a thrown value, as interpolated into a template
literal. -/
def Thrown.display : Thrown → String
  | .errObj name msg _ => name ++ ": " ++ msg
  | .rawValue desc => desc

/-- Whether the catch block's diagnostic test sees a record with a stack
property. -/
def Thrown.hasStack : Thrown → Bool
  | .errObj _ _ _ => true
  | .rawValue _ => false

/-- Stack text of a thrown error object. -/
def Thrown.stackText : Thrown → String
  | .errObj _ _ stack => stack
  | .rawValue _ => ""

/-- One node of the executed module's value graph. Sequences and records
hold addresses of their children, so shared and circular structures are
representable exactly as they are for live values. -/
inductive Node where
  | nullN
  | undefinedN
  | boolN (b : Bool)
  | numN (n : Int)
  | nanN
  | strN (s : String)
  | arrN (elems : List Nat)
  | objN (fields : List (String × Nat))
  | funcN (name : String)
  | promiseN (outcome : Except Thrown Nat)
  | otherN (desc : String)

/-- Read a heap node; a dangling address behaves as undefined, the way a
missing property does. -/
def getNode (store : List Node) (addr : Nat) : Node :=
  (store[addr]?).getD .undefinedN

/-- The missing-default test of the loader is a falsiness test on the
default export. -/
def falsyNode : Node → Bool
  | .undefinedN => true
  | .nullN => true
  | .boolN b => !b
  | .numN n => n == 0
  | .nanN => true
  | .strN s => s == ""
  | _ => false

/-- Whether a node is a thenable. -/
def isPromiseNode : Node → Bool
  | .promiseN _ => true
  | _ => false

/-- Awaiting a value: thenables unwrap to their settled outcome, chained
thenables repeatedly; every other value is returned as is. A chain longer
than the heap is a resolution cycle and rejects, as promise chaining
cycles do. -/
def awaitValue (store : List Node) : Nat → Nat → Except Thrown Nat
  | 0, _ => .error (.errObj "TypeError" "Chaining cycle detected for promise"
      "TypeError: Chaining cycle detected for promise")
  | fuel + 1, addr =>
    match getNode store addr with
    | .promiseN (.error t) => .error t
    | .promiseN (.ok a) => awaitValue store fuel a
    | _ => .ok addr

/-- One step of the path the validator reports: a record key or a
sequence index. -/
inductive PathSeg where
  | key (k : String)
  | idx (i : Nat)

/-- Why the validator rejected a value. -/
inductive BadKind where
  | callable
  | circular
  | other (desc : String)

/-- Validation failure data: the resource it arose in, the path from the
root of the resolved value to the offending location, and the reason. -/
structure SerErr where
  resource : String
  path : List PathSeg
  kind : BadKind

/-- Whether a node belongs to the static data closure the validator
accepts: null, booleans, finite numbers, strings, sequences, records. -/
def dataNode : Node → Bool
  | .nullN => true
  | .boolN _ => true
  | .numN _ => true
  | .strN _ => true
  | .arrN _ => true
  | .objN _ => true
  | .undefinedN => false
  | .nanN => false
  | .funcN _ => false
  | .promiseN _ => false
  | .otherN _ => false

mutual
/-- Modelled from the spec: the serializability validator of
src/is-serializable.ts, which is not present under src. It recursively
classifies the resolved value, accepting strings, finite numbers,
booleans, null, plain string-keyed records and ordered sequences, and
rejecting callables, undefined, non-finite numbers, thenables, any other
non-data construct, and circular references (a value that is its own
ancestor in the traversal), reporting the resource and the path to the
offending location. On success it returns the extracted structural value,
which is what the encoder serializes. -/
def serValue (res : String) (store : List Node) (fuel : Nat) (anc : List Nat)
    (pacc : List PathSeg) (addr : Nat) : Except SerErr Jdata :=
  match fuel with
  | 0 => .error ⟨res, pacc.reverse, .circular⟩
  | fuel + 1 =>
    match getNode store addr with
    | .nullN => .ok .jnull
    | .boolN b => .ok (.jbool b)
    | .numN n => .ok (.jnum n)
    | .strN s => .ok (.jstr s)
    | .nanN => .error ⟨res, pacc.reverse, .other "non-finite number"⟩
    | .undefinedN => .error ⟨res, pacc.reverse, .other "undefined"⟩
    | .funcN _ => .error ⟨res, pacc.reverse, .callable⟩
    | .promiseN _ => .error ⟨res, pacc.reverse, .other "promise"⟩
    | .otherN d => .error ⟨res, pacc.reverse, .other d⟩
    | .arrN elems =>
      if addr ∈ anc then .error ⟨res, pacc.reverse, .circular⟩
      else (serElems res store fuel (addr :: anc) pacc 0 elems).map Jdata.jarr
    | .objN fields =>
      if addr ∈ anc then .error ⟨res, pacc.reverse, .circular⟩
      else (serFields res store fuel (addr :: anc) pacc fields).map Jdata.jrec
termination_by (fuel, 0)

/-- Walk the elements of a sequence node in order, tracking indices. -/
def serElems (res : String) (store : List Node) (fuel : Nat) (anc : List Nat)
    (pacc : List PathSeg) (i : Nat) (elems : List Nat) : Except SerErr (List Jdata) :=
  match elems with
  | [] => .ok []
  | a :: rest =>
    (serValue res store fuel anc (.idx i :: pacc) a).bind fun x =>
    (serElems res store fuel anc pacc (i + 1) rest).map fun xs => x :: xs
termination_by (fuel, 1 + elems.length)

/-- Walk the fields of a record node in encounter order. -/
def serFields (res : String) (store : List Node) (fuel : Nat) (anc : List Nat)
    (pacc : List PathSeg) (fields : List (String × Nat)) :
    Except SerErr (List (String × Jdata)) :=
  match fields with
  | [] => .ok []
  | (k, a) :: rest =>
    (serValue res store fuel anc (.key k :: pacc) a).bind fun x =>
    (serFields res store fuel anc pacc rest).map fun xs => (k, x) :: xs
termination_by (fuel, 1 + fields.length)
end

/-- Modelled from the spec: entry point of the serializability validator,
walking the resolved value from its root with no ancestors and enough
fuel for the deepest possible ancestor chain in the heap. -/
def isSerializable (res : String) (store : List Node) (root : Nat) : Except SerErr Jdata :=
  serValue res store (store.length + 1) [] [] root

/-- Follow a reported path from an address through the heap. -/
def resolveFrom (store : List Node) (addr : Nat) : List PathSeg → Option Nat
  | [] => some addr
  | seg :: p =>
    match getNode store addr, seg with
    | .arrN elems, .idx i => (elems[i]?).bind fun a => resolveFrom store a p
    | .objN fields, .key k =>
      ((fields.find? (fun f => f.1 == k)).map Prod.snd).bind fun a => resolveFrom store a p
    | _, _ => none

/-- A non-data construct or a circular reference is reachable from the
root of the resolved value. -/
def ContainsBad (store : List Node) (root : Nat) : Prop :=
  (∃ p a, resolveFrom store root p = some a ∧ dataNode (getNode store a) = false) ∨
  (∃ p p2 a, p2 ≠ [] ∧ resolveFrom store root p = some a ∧
    resolveFrom store root (p ++ p2) = some a)

/-- The reported path points at the offending location: it resolves to a
node that is not plain data, or it ends by revisiting a value that lies
on its own path, witnessing the circular reference. -/
def PointsAtOffending (store : List Node) (root : Nat) (e : SerErr) : Prop :=
  (∃ a, resolveFrom store root e.path = some a ∧ dataNode (getNode store a) = false) ∨
  (∃ q t a, e.path = q ++ t ∧ t ≠ [] ∧ resolveFrom store root q = some a ∧
    resolveFrom store root e.path = some a)

/-- Record nodes keep unique keys, as live objects do. -/
def WFStore (store : List Node) : Prop :=
  ∀ (a : Nat) (fields : List (String × Nat)),
    store[a]? = some (Node.objN fields) → (fields.map Prod.fst).Nodup

/-- A heap address represents a structural value: node shapes match and
children correspond pointwise, keys preserved in encounter order. -/
inductive Represents (store : List Node) : Nat → Jdata → Prop where
  | nullR (a : Nat) : getNode store a = .nullN → Represents store a .jnull
  | boolR (a : Nat) (b : Bool) : getNode store a = .boolN b → Represents store a (.jbool b)
  | numR (a : Nat) (n : Int) : getNode store a = .numN n → Represents store a (.jnum n)
  | strR (a : Nat) (s : String) : getNode store a = .strN s → Represents store a (.jstr s)
  | arrR (a : Nat) (elems : List Nat) (xs : List Jdata) :
      getNode store a = .arrN elems →
      List.Forall₂ (Represents store) elems xs →
      Represents store a (.jarr xs)
  | objR (a : Nat) (fields : List (String × Nat)) (kvs : List (String × Jdata)) :
      getNode store a = .objN fields →
      fields.map Prod.fst = kvs.map Prod.fst →
      List.Forall₂ (Represents store) (fields.map Prod.snd) (kvs.map Prod.snd) →
      Represents store a (.jrec kvs)

theorem forall2_getElem {α β : Type} {R : α → β → Prop} {as : List α} {bs : List β}
    (h : List.Forall₂ R as bs) :
    ∀ {i : Nat} {a : α}, as[i]? = some a → ∃ b, bs[i]? = some b ∧ R a b := by
  induction h with
  | nil => intro i a h; simp at h
  | cons hr hrest ih =>
    intro i a hget
    cases i with
    | zero =>
      simp only [List.getElem?_cons_zero, Option.some_inj] at hget
      subst hget
      exact ⟨_, by simp, hr⟩
    | succ j =>
      simp only [List.getElem?_cons_succ] at hget
      obtain ⟨b, hb, hrb⟩ := ih hget
      exact ⟨b, by simpa using hb, hrb⟩

theorem forall2_mem {α β : Type} {R : α → β → Prop} {as : List α} {bs : List β}
    (h : List.Forall₂ R as bs) :
    ∀ {a : α}, a ∈ as → ∃ b ∈ bs, R a b := by
  induction h with
  | nil => intro a h; simp at h
  | cons hr hrest ih =>
    intro a ha
    rcases List.mem_cons.mp ha with ha | ha
    · subst ha
      exact ⟨_, by simp, hr⟩
    · obtain ⟨b, hb, hrb⟩ := ih ha
      exact ⟨b, by simp [hb], hrb⟩

theorem forall2_det {α β : Type} {R : α → β → Prop} :
    ∀ {as : List α} {bs cs : List β}, List.Forall₂ R as bs → List.Forall₂ R as cs →
      (∀ a b, a ∈ as → b ∈ bs → ∀ c, R a b → R a c → b = c) → bs = cs := by
  intro as bs cs h1
  induction h1 generalizing cs with
  | nil =>
    intro h2 _
    cases h2
    rfl
  | cons hr hrest ih =>
    intro h2 hdet
    cases h2 with
    | cons hr2 hrest2 =>
      have hb := hdet _ _ (by simp) (by simp) _ hr hr2
      have hbs := ih hrest2 (fun a b ha hb2 => hdet a b (by simp [ha]) (by simp [hb2]))
      rw [hb, hbs]

theorem map_fst_snd_ext {α β : Type} :
    ∀ (l1 l2 : List (α × β)), l1.map Prod.fst = l2.map Prod.fst →
      l1.map Prod.snd = l2.map Prod.snd → l1 = l2 := by
  intro l1
  induction l1 with
  | nil =>
    intro l2 h1 _
    cases l2 with
    | nil => rfl
    | cons p ps => simp at h1
  | cons p ps ih =>
    intro l2 h1 h2
    cases l2 with
    | nil => simp at h1
    | cons q qs =>
      simp only [List.map_cons, List.cons.injEq] at h1 h2
      have := ih qs h1.2 h2.2
      obtain ⟨p1, p2⟩ := p
      obtain ⟨q1, q2⟩ := q
      simp only at h1 h2
      simp [h1.1, h2.1, this]

theorem repr_inv_null {store : List Node} {a : Nat} {w : Jdata}
    (h : Represents store a w) (hn : getNode store a = Node.nullN) : w = Jdata.jnull := by
  cases h with
  | nullR _ h2 => rfl
  | boolR _ b h2 => rw [h2] at hn; cases hn
  | numR _ n h2 => rw [h2] at hn; cases hn
  | strR _ s h2 => rw [h2] at hn; cases hn
  | arrR _ elems xs h2 hf => rw [h2] at hn; cases hn
  | objR _ fields kvs h2 hk hf => rw [h2] at hn; cases hn

theorem repr_inv_bool {store : List Node} {a : Nat} {w : Jdata} {b : Bool}
    (h : Represents store a w) (hn : getNode store a = Node.boolN b) : w = Jdata.jbool b := by
  cases h with
  | nullR _ h2 => rw [h2] at hn; cases hn
  | boolR _ b2 h2 =>
    rw [h2] at hn
    injection hn with he
    rw [he]
  | numR _ n h2 => rw [h2] at hn; cases hn
  | strR _ s h2 => rw [h2] at hn; cases hn
  | arrR _ elems xs h2 hf => rw [h2] at hn; cases hn
  | objR _ fields kvs h2 hk hf => rw [h2] at hn; cases hn

theorem repr_inv_num {store : List Node} {a : Nat} {w : Jdata} {n : Int}
    (h : Represents store a w) (hn : getNode store a = Node.numN n) : w = Jdata.jnum n := by
  cases h with
  | nullR _ h2 => rw [h2] at hn; cases hn
  | boolR _ b h2 => rw [h2] at hn; cases hn
  | numR _ n2 h2 =>
    rw [h2] at hn
    injection hn with he
    rw [he]
  | strR _ s h2 => rw [h2] at hn; cases hn
  | arrR _ elems xs h2 hf => rw [h2] at hn; cases hn
  | objR _ fields kvs h2 hk hf => rw [h2] at hn; cases hn

theorem repr_inv_str {store : List Node} {a : Nat} {w : Jdata} {s : String}
    (h : Represents store a w) (hn : getNode store a = Node.strN s) : w = Jdata.jstr s := by
  cases h with
  | nullR _ h2 => rw [h2] at hn; cases hn
  | boolR _ b h2 => rw [h2] at hn; cases hn
  | numR _ n h2 => rw [h2] at hn; cases hn
  | strR _ s2 h2 =>
    rw [h2] at hn
    injection hn with he
    rw [he]
  | arrR _ elems xs h2 hf => rw [h2] at hn; cases hn
  | objR _ fields kvs h2 hk hf => rw [h2] at hn; cases hn

theorem repr_inv_arr {store : List Node} {a : Nat} {w : Jdata} {elems : List Nat}
    (h : Represents store a w) (hn : getNode store a = Node.arrN elems) :
    ∃ xs, w = Jdata.jarr xs ∧ List.Forall₂ (Represents store) elems xs := by
  cases h with
  | nullR _ h2 => rw [h2] at hn; cases hn
  | boolR _ b h2 => rw [h2] at hn; cases hn
  | numR _ n h2 => rw [h2] at hn; cases hn
  | strR _ s h2 => rw [h2] at hn; cases hn
  | arrR _ elems2 xs h2 hf =>
    rw [h2] at hn
    injection hn with he
    subst he
    exact ⟨xs, rfl, hf⟩
  | objR _ fields kvs h2 hk hf => rw [h2] at hn; cases hn

theorem repr_inv_obj {store : List Node} {a : Nat} {w : Jdata} {fields : List (String × Nat)}
    (h : Represents store a w) (hn : getNode store a = Node.objN fields) :
    ∃ kvs, w = Jdata.jrec kvs ∧ fields.map Prod.fst = kvs.map Prod.fst ∧
      List.Forall₂ (Represents store) (fields.map Prod.snd) (kvs.map Prod.snd) := by
  cases h with
  | nullR _ h2 => rw [h2] at hn; cases hn
  | boolR _ b h2 => rw [h2] at hn; cases hn
  | numR _ n h2 => rw [h2] at hn; cases hn
  | strR _ s h2 => rw [h2] at hn; cases hn
  | arrR _ elems2 xs h2 hf => rw [h2] at hn; cases hn
  | objR _ fields2 kvs h2 hk hf =>
    rw [h2] at hn
    injection hn with he
    subst he
    exact ⟨kvs, rfl, hk, hf⟩

theorem represents_det_aux (store : List Node) : ∀ (n : Nat) (v : Jdata), sizeOf v ≤ n →
    ∀ (a : Nat) (w : Jdata), Represents store a v → Represents store a w → v = w := by
  intro n
  induction n with
  | zero =>
    intro v hv
    cases v <;> simp at hv
  | succ m ih =>
    intro v hv a w h1 h2
    cases h1 with
    | nullR _ hn => exact (repr_inv_null h2 hn).symm
    | boolR _ b hn => exact (repr_inv_bool h2 hn).symm
    | numR _ n2 hn => exact (repr_inv_num h2 hn).symm
    | strR _ s hn => exact (repr_inv_str h2 hn).symm
    | arrR _ elems xs hn hf =>
      obtain ⟨ys, hw, hf2⟩ := repr_inv_arr h2 hn
      subst hw
      have hxy : xs = ys := by
        refine forall2_det hf hf2 ?_
        intro e x he hx y hxr hyr
        refine ih x ?_ e y hxr hyr
        have hm := List.sizeOf_lt_of_mem hx
        simp only [Jdata.jarr.sizeOf_spec] at hv
        omega
      rw [hxy]
    | objR _ fields kvs hn hk hf =>
      obtain ⟨kvs2, hw, hk2, hf2⟩ := repr_inv_obj h2 hn
      subst hw
      have hsnd : kvs.map Prod.snd = kvs2.map Prod.snd := by
        refine forall2_det hf hf2 ?_
        intro e x he hx y hxr hyr
        have hlt : sizeOf x ≤ m := by
          obtain ⟨kv, hkv, hkv2⟩ := List.mem_map.mp hx
          have hmem := List.sizeOf_lt_of_mem hkv
          obtain ⟨k1, v1⟩ := kv
          simp only at hkv2
          subst hkv2
          simp only [Jdata.jrec.sizeOf_spec, Prod.mk.sizeOf_spec] at hv hmem
          omega
        exact ih x hlt e y hxr hyr
      have heq : kvs = kvs2 := map_fst_snd_ext kvs kvs2 (hk.symm.trans hk2) hsnd
      rw [heq]

theorem represents_det (store : List Node) (v : Jdata) (a : Nat) (w : Jdata)
    (h1 : Represents store a v) (h2 : Represents store a w) : v = w :=
  represents_det_aux store (sizeOf v) v (le_refl _) a w h1 h2

theorem getNode_valid {store : List Node} {a : Nat} {n : Node}
    (hn : getNode store a = n) (hne : n ≠ Node.undefinedN) : a < store.length := by
  by_contra hlt
  have hnone : store[a]? = none := List.getElem?_eq_none (by omega)
  rw [getNode, hnone] at hn
  exact hne hn.symm

theorem getNode_some {store : List Node} {a : Nat} {n : Node}
    (hn : getNode store a = n) (hne : n ≠ Node.undefinedN) : store[a]? = some n := by
  have hlt := getNode_valid hn hne
  rw [getNode] at hn
  cases hg : store[a]? with
  | none => rw [hg] at hn; exact absurd hn.symm hne
  | some m => rw [hg] at hn; rw [← hn]; rfl

theorem repr_valid {store : List Node} {a : Nat} {v : Jdata}
    (h : Represents store a v) : a < store.length := by
  cases h with
  | nullR _ hn => exact getNode_valid hn (by simp)
  | boolR _ b hn => exact getNode_valid hn (by simp)
  | numR _ n hn => exact getNode_valid hn (by simp)
  | strR _ s hn => exact getNode_valid hn (by simp)
  | arrR _ elems xs hn hf => exact getNode_valid hn (by simp)
  | objR _ fields kvs hn hk hf => exact getNode_valid hn (by simp)

theorem getNode_append {store ext : List Node} {a : Nat} (h : a < store.length) :
    getNode (store ++ ext) a = getNode store a := by
  rw [getNode, getNode, List.getElem?_append_left h]

theorem forall2_imp_mem {α β : Type} {R S : α → β → Prop} :
    ∀ {as : List α} {bs : List β}, List.Forall₂ R as bs →
      (∀ a b, a ∈ as → b ∈ bs → R a b → S a b) → List.Forall₂ S as bs := by
  intro as bs h
  induction h with
  | nil => intro _; exact List.Forall₂.nil
  | cons hr hrest ih =>
    intro himp
    exact List.Forall₂.cons (himp _ _ (by simp) (by simp) hr)
      (ih (fun a b ha hb => himp a b (by simp [ha]) (by simp [hb])))

theorem represents_append_aux (store ext : List Node) : ∀ (n : Nat) (v : Jdata),
    sizeOf v ≤ n → ∀ a, Represents store a v → Represents (store ++ ext) a v := by
  intro n
  induction n with
  | zero =>
    intro v hv
    cases v <;> simp at hv
  | succ m ih =>
    intro v hv a h
    have hval := repr_valid h
    cases h with
    | nullR _ hn => exact Represents.nullR a ((getNode_append hval).trans hn)
    | boolR _ b hn => exact Represents.boolR a b ((getNode_append hval).trans hn)
    | numR _ n2 hn => exact Represents.numR a n2 ((getNode_append hval).trans hn)
    | strR _ s hn => exact Represents.strR a s ((getNode_append hval).trans hn)
    | arrR _ elems xs hn hf =>
      refine Represents.arrR a elems xs ((getNode_append hval).trans hn) ?_
      refine forall2_imp_mem hf ?_
      intro e x he hx hr
      refine ih x ?_ e hr
      have hm := List.sizeOf_lt_of_mem hx
      simp only [Jdata.jarr.sizeOf_spec] at hv
      omega
    | objR _ fields kvs hn hk hf =>
      refine Represents.objR a fields kvs ((getNode_append hval).trans hn) hk ?_
      refine forall2_imp_mem hf ?_
      intro e x he hx hr
      refine ih x ?_ e hr
      obtain ⟨kv, hkv, hkv2⟩ := List.mem_map.mp hx
      have hm := List.sizeOf_lt_of_mem hkv
      obtain ⟨k1, v1⟩ := kv
      simp only at hkv2
      subst hkv2
      simp only [Jdata.jrec.sizeOf_spec, Prod.mk.sizeOf_spec] at hv hm
      omega

theorem represents_append {store ext : List Node} {a : Nat} {v : Jdata}
    (h : Represents store a v) : Represents (store ++ ext) a v :=
  represents_append_aux store ext (sizeOf v) v (le_refl _) a h

theorem resolveFrom_cons (store : List Node) (addr : Nat) (seg : PathSeg)
    (p : List PathSeg) :
    resolveFrom store addr (seg :: p) =
      (match getNode store addr, seg with
      | .arrN elems, .idx i => (elems[i]?).bind fun a => resolveFrom store a p
      | .objN fields, .key k =>
        ((fields.find? (fun f => f.1 == k)).map Prod.snd).bind fun a => resolveFrom store a p
      | _, _ => none) := by
  rw [resolveFrom.eq_def]

theorem resolveFrom_append (store : List Node) (p q : List PathSeg) : ∀ a,
    resolveFrom store a (p ++ q) =
      (resolveFrom store a p).bind fun b => resolveFrom store b q := by
  induction p with
  | nil => intro a; rfl
  | cons seg p ih =>
    intro a
    rw [List.cons_append, resolveFrom_cons, resolveFrom_cons]
    cases hg : getNode store a with
    | arrN elems =>
      cases seg with
      | idx i =>
        simp only
        cases he : elems[i]? with
        | none => rfl
        | some c => simp [ih c]
      | key k => rfl
    | objN fields =>
      cases seg with
      | idx i => rfl
      | key k =>
        simp only
        cases he : fields.find? (fun f => f.1 == k) with
        | none => rfl
        | some f => simp [ih f.2]
    | nullN => cases seg <;> rfl
    | undefinedN => cases seg <;> rfl
    | boolN b => cases seg <;> rfl
    | numN n => cases seg <;> rfl
    | nanN => cases seg <;> rfl
    | strN s => cases seg <;> rfl
    | funcN name => cases seg <;> rfl
    | promiseN o => cases seg <;> rfl
    | otherN d => cases seg <;> rfl

theorem repr_resolve (store : List Node) : ∀ (p : List PathSeg) (a : Nat) (v : Jdata)
    (b : Nat), Represents store a v → resolveFrom store a p = some b →
    ∃ w, Represents store b w ∧ (p = [] → w = v) ∧ (p ≠ [] → sizeOf w < sizeOf v) := by
  intro p
  induction p with
  | nil =>
    intro a v b h hres
    rw [resolveFrom] at hres
    injection hres with hb
    subst hb
    exact ⟨v, h, fun _ => rfl, fun hne => absurd rfl hne⟩
  | cons seg p ih =>
    intro a v b h hres
    rw [resolveFrom_cons] at hres
    cases hg : getNode store a with
    | arrN elems =>
      cases seg with
      | idx i =>
        rw [hg] at hres
        simp only at hres
        cases he : elems[i]? with
        | none => rw [he] at hres; cases hres
        | some c =>
          rw [he] at hres
          simp only [Option.some_bind] at hres
          obtain ⟨xs, hv, hf⟩ := repr_inv_arr h hg
          subst hv
          obtain ⟨x, hx, hrx⟩ := forall2_getElem hf he
          obtain ⟨w, hw, hnil, hlt⟩ := ih c x b hrx hres
          refine ⟨w, hw, fun hcons => absurd hcons.symm (List.cons_ne_nil _ _).symm, fun _ => ?_⟩
          have hxmem : x ∈ xs := List.getElem?_mem hx
          have hsx : sizeOf x < sizeOf (Jdata.jarr xs) := by
            have := List.sizeOf_lt_of_mem hxmem
            simp only [Jdata.jarr.sizeOf_spec]
            omega
          by_cases hp : p = []
          · rw [hnil hp] at *
            exact hsx
          · exact lt_trans (hlt hp) hsx
      | key k => rw [hg] at hres; simp only at hres; cases hres
    | objN fields =>
      cases seg with
      | idx i => rw [hg] at hres; simp only at hres; cases hres
      | key k =>
        rw [hg] at hres
        simp only at hres
        cases he : fields.find? (fun f => f.1 == k) with
        | none => rw [he] at hres; cases hres
        | some f =>
          rw [he] at hres
          have hres : resolveFrom store f.2 p = some b := hres
          obtain ⟨kvs, hv, hk, hf2⟩ := repr_inv_obj h hg
          subst hv
          have hfm : f ∈ fields := List.mem_of_find?_eq_some he
          have hfs : f.2 ∈ fields.map Prod.snd := List.mem_map_of_mem Prod.snd hfm
          obtain ⟨x, hx, hrx⟩ := forall2_mem hf2 hfs
          obtain ⟨w, hw, hnil, hlt⟩ := ih f.2 x b hrx hres
          refine ⟨w, hw, fun hcons => absurd hcons.symm (List.cons_ne_nil _ _).symm, fun _ => ?_⟩
          have hsx : sizeOf x < sizeOf (Jdata.jrec kvs) := by
            obtain ⟨kv, hkv, hkv2⟩ := List.mem_map.mp hx
            have := List.sizeOf_lt_of_mem hkv
            obtain ⟨k1, v1⟩ := kv
            simp only at hkv2
            subst hkv2
            simp only [Jdata.jrec.sizeOf_spec, Prod.mk.sizeOf_spec] at *
            omega
          by_cases hp : p = []
          · rw [hnil hp] at *
            exact hsx
          · exact lt_trans (hlt hp) hsx
    | nullN => rw [hg] at hres; cases seg <;> (simp only at hres; cases hres)
    | undefinedN => rw [hg] at hres; cases seg <;> (simp only at hres; cases hres)
    | boolN b2 => rw [hg] at hres; cases seg <;> (simp only at hres; cases hres)
    | numN n => rw [hg] at hres; cases seg <;> (simp only at hres; cases hres)
    | nanN => rw [hg] at hres; cases seg <;> (simp only at hres; cases hres)
    | strN s => rw [hg] at hres; cases seg <;> (simp only at hres; cases hres)
    | funcN name => rw [hg] at hres; cases seg <;> (simp only at hres; cases hres)
    | promiseN o => rw [hg] at hres; cases seg <;> (simp only at hres; cases hres)
    | otherN d => rw [hg] at hres; cases seg <;> (simp only at hres; cases hres)

theorem repr_dataNode {store : List Node} {a : Nat} {w : Jdata}
    (h : Represents store a w) : dataNode (getNode store a) = true := by
  cases h with
  | nullR _ hn => rw [hn]; rfl
  | boolR _ b hn => rw [hn]; rfl
  | numR _ n hn => rw [hn]; rfl
  | strR _ s hn => rw [hn]; rfl
  | arrR _ elems xs hn hf => rw [hn]; rfl
  | objR _ fields kvs hn hk hf => rw [hn]; rfl

theorem repr_not_bad {store : List Node} {root : Nat} {v : Jdata}
    (h : Represents store root v) : ¬ ContainsBad store root := by
  intro hbad
  rcases hbad with ⟨p, a, hres, hdata⟩ | ⟨p, p2, a, hne, h1, h2⟩
  · obtain ⟨w, hw, _, _⟩ := repr_resolve store p root v a h hres
    rw [repr_dataNode hw] at hdata
    cases hdata
  · obtain ⟨w, hw, _, _⟩ := repr_resolve store p root v a h h1
    rw [resolveFrom_append store p p2 root, h1] at h2
    simp only [Option.some_bind] at h2
    obtain ⟨w2, hw2, hnil2, hlt2⟩ := repr_resolve store p2 a w a hw h2
    have heq := represents_det store w2 a w hw2 hw
    have hlt := hlt2 hne
    rw [heq] at hlt
    exact lt_irrefl _ hlt

/-- Whether a node is a container the traversal recurses into. -/
def containerNode : Node → Bool
  | .arrN _ => true
  | .objN _ => true
  | .nullN => false
  | .undefinedN => false
  | .boolN _ => false
  | .numN _ => false
  | .nanN => false
  | .strN _ => false
  | .funcN _ => false
  | .promiseN _ => false
  | .otherN _ => false

theorem serValue_zero (res : String) (store : List Node) (anc : List Nat)
    (pacc : List PathSeg) (addr : Nat) :
    serValue res store 0 anc pacc addr = .error ⟨res, pacc.reverse, .circular⟩ := by
  rw [serValue.eq_def]

theorem serValue_succ_null {store : List Node} {addr : Nat}
    (hn : getNode store addr = Node.nullN) (res : String) (fuel : Nat) (anc : List Nat)
    (pacc : List PathSeg) :
    serValue res store (fuel + 1) anc pacc addr = .ok .jnull := by
  rw [serValue.eq_def, hn]

theorem serValue_succ_bool {store : List Node} {addr : Nat} {b : Bool}
    (hn : getNode store addr = Node.boolN b) (res : String) (fuel : Nat) (anc : List Nat)
    (pacc : List PathSeg) :
    serValue res store (fuel + 1) anc pacc addr = .ok (.jbool b) := by
  rw [serValue.eq_def, hn]

theorem serValue_succ_num {store : List Node} {addr : Nat} {n : Int}
    (hn : getNode store addr = Node.numN n) (res : String) (fuel : Nat) (anc : List Nat)
    (pacc : List PathSeg) :
    serValue res store (fuel + 1) anc pacc addr = .ok (.jnum n) := by
  rw [serValue.eq_def, hn]

theorem serValue_succ_str {store : List Node} {addr : Nat} {s : String}
    (hn : getNode store addr = Node.strN s) (res : String) (fuel : Nat) (anc : List Nat)
    (pacc : List PathSeg) :
    serValue res store (fuel + 1) anc pacc addr = .ok (.jstr s) := by
  rw [serValue.eq_def, hn]

theorem serValue_succ_nan {store : List Node} {addr : Nat}
    (hn : getNode store addr = Node.nanN) (res : String) (fuel : Nat) (anc : List Nat)
    (pacc : List PathSeg) :
    serValue res store (fuel + 1) anc pacc addr
      = .error ⟨res, pacc.reverse, .other "non-finite number"⟩ := by
  rw [serValue.eq_def, hn]

theorem serValue_succ_undefined {store : List Node} {addr : Nat}
    (hn : getNode store addr = Node.undefinedN) (res : String) (fuel : Nat) (anc : List Nat)
    (pacc : List PathSeg) :
    serValue res store (fuel + 1) anc pacc addr
      = .error ⟨res, pacc.reverse, .other "undefined"⟩ := by
  rw [serValue.eq_def, hn]

theorem serValue_succ_func {store : List Node} {addr : Nat} {name : String}
    (hn : getNode store addr = Node.funcN name) (res : String) (fuel : Nat) (anc : List Nat)
    (pacc : List PathSeg) :
    serValue res store (fuel + 1) anc pacc addr
      = .error ⟨res, pacc.reverse, .callable⟩ := by
  rw [serValue.eq_def, hn]

theorem serValue_succ_promise {store : List Node} {addr : Nat} {o : Except Thrown Nat}
    (hn : getNode store addr = Node.promiseN o) (res : String) (fuel : Nat) (anc : List Nat)
    (pacc : List PathSeg) :
    serValue res store (fuel + 1) anc pacc addr
      = .error ⟨res, pacc.reverse, .other "promise"⟩ := by
  rw [serValue.eq_def, hn]

theorem serValue_succ_other {store : List Node} {addr : Nat} {d : String}
    (hn : getNode store addr = Node.otherN d) (res : String) (fuel : Nat) (anc : List Nat)
    (pacc : List PathSeg) :
    serValue res store (fuel + 1) anc pacc addr
      = .error ⟨res, pacc.reverse, .other d⟩ := by
  rw [serValue.eq_def, hn]

theorem serValue_succ_arr {store : List Node} {addr : Nat} {elems : List Nat}
    (hn : getNode store addr = Node.arrN elems) (res : String) (fuel : Nat) (anc : List Nat)
    (pacc : List PathSeg) :
    serValue res store (fuel + 1) anc pacc addr
      = if addr ∈ anc then .error ⟨res, pacc.reverse, .circular⟩
        else (serElems res store fuel (addr :: anc) pacc 0 elems).map Jdata.jarr := by
  rw [serValue.eq_def, hn]

theorem serValue_succ_obj {store : List Node} {addr : Nat} {fields : List (String × Nat)}
    (hn : getNode store addr = Node.objN fields) (res : String) (fuel : Nat) (anc : List Nat)
    (pacc : List PathSeg) :
    serValue res store (fuel + 1) anc pacc addr
      = if addr ∈ anc then .error ⟨res, pacc.reverse, .circular⟩
        else (serFields res store fuel (addr :: anc) pacc fields).map Jdata.jrec := by
  rw [serValue.eq_def, hn]

theorem serElems_nil (res : String) (store : List Node) (fuel : Nat) (anc : List Nat)
    (pacc : List PathSeg) (i : Nat) :
    serElems res store fuel anc pacc i [] = .ok [] := by
  rw [serElems.eq_def]

theorem serElems_cons (res : String) (store : List Node) (fuel : Nat) (anc : List Nat)
    (pacc : List PathSeg) (i : Nat) (a : Nat) (rest : List Nat) :
    serElems res store fuel anc pacc i (a :: rest)
      = (serValue res store fuel anc (.idx i :: pacc) a).bind fun x =>
        (serElems res store fuel anc pacc (i + 1) rest).map fun xs => x :: xs := by
  rw [serElems.eq_def]

theorem serFields_nil (res : String) (store : List Node) (fuel : Nat) (anc : List Nat)
    (pacc : List PathSeg) :
    serFields res store fuel anc pacc [] = .ok [] := by
  rw [serFields.eq_def]

theorem serFields_cons (res : String) (store : List Node) (fuel : Nat) (anc : List Nat)
    (pacc : List PathSeg) (k : String) (a : Nat) (rest : List (String × Nat)) :
    serFields res store fuel anc pacc ((k, a) :: rest)
      = (serValue res store fuel anc (.key k :: pacc) a).bind fun x =>
        (serFields res store fuel anc pacc rest).map fun xs => (k, x) :: xs := by
  rw [serFields.eq_def]

theorem nodup_bounded_length {l : List Nat} {n : Nat} (hnd : l.Nodup)
    (hb : ∀ b ∈ l, b < n) : l.length ≤ n := by
  have h2 : l.toFinset ⊆ Finset.range n := by
    intro a ha
    simp only [List.mem_toFinset] at ha
    simpa using hb a ha
  have h3 := Finset.card_le_card h2
  simpa [List.toFinset_card_of_nodup hnd, Finset.card_range] using h3

mutual
theorem serValue_sound (res : String) (store : List Node) (fuel : Nat) (anc : List Nat)
    (pacc : List PathSeg) (addr : Nat) : ∀ v,
    serValue res store fuel anc pacc addr = .ok v → Represents store addr v := by
  cases fuel with
  | zero =>
    intro v h
    rw [serValue_zero] at h
    cases h
  | succ f =>
    intro v h
    cases hg : getNode store addr with
    | nullN =>
      rw [serValue_succ_null hg] at h
      injection h with hv
      subst hv
      exact Represents.nullR addr hg
    | boolN b =>
      rw [serValue_succ_bool hg] at h
      injection h with hv
      subst hv
      exact Represents.boolR addr b hg
    | numN n =>
      rw [serValue_succ_num hg] at h
      injection h with hv
      subst hv
      exact Represents.numR addr n hg
    | strN s =>
      rw [serValue_succ_str hg] at h
      injection h with hv
      subst hv
      exact Represents.strR addr s hg
    | nanN => rw [serValue_succ_nan hg] at h; cases h
    | undefinedN => rw [serValue_succ_undefined hg] at h; cases h
    | funcN name => rw [serValue_succ_func hg] at h; cases h
    | promiseN o => rw [serValue_succ_promise hg] at h; cases h
    | otherN d => rw [serValue_succ_other hg] at h; cases h
    | arrN elems =>
      rw [serValue_succ_arr hg] at h
      by_cases hin : addr ∈ anc
      · rw [if_pos hin] at h; cases h
      · rw [if_neg hin] at h
        cases hs : serElems res store f (addr :: anc) pacc 0 elems with
        | error e => rw [hs] at h; cases h
        | ok xs =>
          rw [hs] at h
          injection h with hv
          subst hv
          exact Represents.arrR addr elems xs hg
            (serElems_sound res store f (addr :: anc) pacc 0 elems xs hs)
    | objN fields =>
      rw [serValue_succ_obj hg] at h
      by_cases hin : addr ∈ anc
      · rw [if_pos hin] at h; cases h
      · rw [if_neg hin] at h
        cases hs : serFields res store f (addr :: anc) pacc fields with
        | error e => rw [hs] at h; cases h
        | ok kvs =>
          rw [hs] at h
          injection h with hv
          subst hv
          obtain ⟨hk, hf⟩ := serFields_sound res store f (addr :: anc) pacc fields kvs hs
          exact Represents.objR addr fields kvs hg hk hf
termination_by (fuel, 0)

theorem serElems_sound (res : String) (store : List Node) (fuel : Nat) (anc : List Nat)
    (pacc : List PathSeg) (i : Nat) (elems : List Nat) : ∀ xs,
    serElems res store fuel anc pacc i elems = .ok xs →
    List.Forall₂ (Represents store) elems xs := by
  cases elems with
  | nil =>
    intro xs h
    rw [serElems_nil] at h
    injection h with hv
    subst hv
    exact List.Forall₂.nil
  | cons a rest =>
    intro xs h
    rw [serElems_cons] at h
    cases hv : serValue res store fuel anc (.idx i :: pacc) a with
    | error e => rw [hv] at h; cases h
    | ok x =>
      rw [hv] at h
      have h : (serElems res store fuel anc pacc (i + 1) rest).map
          (fun xs => x :: xs) = .ok xs := h
      cases hs : serElems res store fuel anc pacc (i + 1) rest with
      | error e => rw [hs] at h; cases h
      | ok xs2 =>
        rw [hs] at h
        injection h with hv2
        subst hv2
        exact List.Forall₂.cons (serValue_sound res store fuel anc (.idx i :: pacc) a x hv)
          (serElems_sound res store fuel anc pacc (i + 1) rest xs2 hs)
termination_by (fuel, 1 + elems.length)

theorem serFields_sound (res : String) (store : List Node) (fuel : Nat) (anc : List Nat)
    (pacc : List PathSeg) (fields : List (String × Nat)) : ∀ kvs,
    serFields res store fuel anc pacc fields = .ok kvs →
    fields.map Prod.fst = kvs.map Prod.fst ∧
      List.Forall₂ (Represents store) (fields.map Prod.snd) (kvs.map Prod.snd) := by
  cases fields with
  | nil =>
    intro kvs h
    rw [serFields_nil] at h
    injection h with hv
    subst hv
    exact ⟨rfl, List.Forall₂.nil⟩
  | cons g rest =>
    obtain ⟨k, a⟩ := g
    intro kvs h
    rw [serFields_cons] at h
    cases hv : serValue res store fuel anc (.key k :: pacc) a with
    | error e => rw [hv] at h; cases h
    | ok x =>
      rw [hv] at h
      have h : (serFields res store fuel anc pacc rest).map
          (fun xs => (k, x) :: xs) = .ok kvs := h
      cases hs : serFields res store fuel anc pacc rest with
      | error e => rw [hs] at h; cases h
      | ok kvs2 =>
        rw [hs] at h
        injection h with hv2
        subst hv2
        obtain ⟨hk, hf⟩ := serFields_sound res store fuel anc pacc rest kvs2 hs
        refine ⟨?_, ?_⟩
        · simp only [List.map_cons, hk]
        · exact List.Forall₂.cons
            (serValue_sound res store fuel anc (.key k :: pacc) a x hv) hf
termination_by (fuel, 1 + fields.length)
end

theorem getElem?_some_lt {α : Type} {l : List α} {i : Nat} {a : α}
    (h : l[i]? = some a) : i < l.length := by
  by_contra hn
  rw [List.getElem?_eq_none (by omega)] at h
  cases h

theorem serValue_complete_aux (res : String) (store : List Node) : ∀ (n : Nat) (v : Jdata),
    sizeOf v ≤ n → ∀ (fuel : Nat) (anc : List Nat) (pacc : List PathSeg) (addr : Nat),
    Represents store addr v →
    (∀ b ∈ anc, ∃ u, Represents store b u ∧ sizeOf v < sizeOf u) →
    anc.Nodup →
    (∀ b ∈ anc, ∃ nn, store[b]? = some nn ∧ containerNode nn = true) →
    store.length + 1 ≤ fuel + anc.length →
    serValue res store fuel anc pacc addr = .ok v := by
  intro n
  induction n with
  | zero =>
    intro v hv
    cases v <;> simp at hv
  | succ m ih =>
    intro v hv fuel anc pacc addr hrep hsup hnd hcon hcount
    have hlen : anc.length ≤ store.length := nodup_bounded_length hnd (fun b hb => by
      obtain ⟨nn, hnn, _⟩ := hcon b hb
      exact getElem?_some_lt hnn)
    obtain ⟨f, rfl⟩ : ∃ f, fuel = f + 1 := by
      cases fuel with
      | zero => omega
      | succ f => exact ⟨f, rfl⟩
    cases hrep with
    | nullR _ hn => rw [serValue_succ_null hn]
    | boolR _ b hn => rw [serValue_succ_bool hn]
    | numR _ n2 hn => rw [serValue_succ_num hn]
    | strR _ s hn => rw [serValue_succ_str hn]
    | arrR _ elems xs hn hf =>
      rw [serValue_succ_arr hn]
      have haddr : addr ∉ anc := by
        intro hin
        obtain ⟨u, hu, hlt⟩ := hsup addr hin
        have heq := represents_det store (Jdata.jarr xs) addr u
          (Represents.arrR addr elems xs hn hf) hu
        rw [← heq] at hlt
        exact lt_irrefl _ hlt
      rw [if_neg haddr]
      have hsz : ∀ x ∈ xs, sizeOf x ≤ m := by
        intro x hx
        have := List.sizeOf_lt_of_mem hx
        simp only [Jdata.jarr.sizeOf_spec] at hv
        omega
      have hsup2 : ∀ x ∈ xs, ∀ b ∈ (addr :: anc), ∃ u,
          Represents store b u ∧ sizeOf x < sizeOf u := by
        intro x hx b hb
        rcases List.mem_cons.mp hb with hb | hb
        · subst hb
          refine ⟨Jdata.jarr xs, Represents.arrR b elems xs hn hf, ?_⟩
          have := List.sizeOf_lt_of_mem hx
          simp only [Jdata.jarr.sizeOf_spec]
          omega
        · obtain ⟨u, hu, hlt⟩ := hsup b hb
          refine ⟨u, hu, ?_⟩
          have := List.sizeOf_lt_of_mem hx
          simp only [Jdata.jarr.sizeOf_spec] at hlt
          omega
      have hnd2 : (addr :: anc).Nodup := List.nodup_cons.mpr ⟨haddr, hnd⟩
      have hcon2 : ∀ b ∈ (addr :: anc), ∃ nn, store[b]? = some nn ∧
          containerNode nn = true := by
        intro b hb
        rcases List.mem_cons.mp hb with hb | hb
        · subst hb
          exact ⟨Node.arrN elems, getNode_some hn (by simp), rfl⟩
        · exact hcon b hb
      have hcount2 : store.length + 1 ≤ f + (addr :: anc).length := by
        simp only [List.length_cons]
        omega
      have helems : ∀ (elems2 : List Nat) (xs2 : List Jdata),
          List.Forall₂ (Represents store) elems2 xs2 →
          (∀ x ∈ xs2, sizeOf x ≤ m) →
          (∀ x ∈ xs2, ∀ b ∈ (addr :: anc), ∃ u, Represents store b u ∧ sizeOf x < sizeOf u) →
          ∀ i, serElems res store f (addr :: anc) pacc i elems2 = .ok xs2 := by
        intro elems2 xs2 h2
        induction h2 with
        | nil =>
          intro _ _ i
          exact serElems_nil res store f (addr :: anc) pacc i
        | cons hx hrest ih2 =>
          rename_i a x rest2 xsrest
          intro hszs hsups i
          rw [serElems_cons]
          rw [ih x (hszs x (by simp)) f (addr :: anc) (.idx i :: pacc) a hx
            (hsups x (by simp)) hnd2 hcon2 hcount2]
          rw [ih2 (fun y hy => hszs y (by simp [hy]))
            (fun y hy => hsups y (by simp [hy])) (i + 1)]
          rfl
      rw [helems elems xs hf hsz hsup2 0]
      rfl
    | objR _ fields kvs hn hk hf =>
      rw [serValue_succ_obj hn]
      have haddr : addr ∉ anc := by
        intro hin
        obtain ⟨u, hu, hlt⟩ := hsup addr hin
        have heq := represents_det store (Jdata.jrec kvs) addr u
          (Represents.objR addr fields kvs hn hk hf) hu
        rw [← heq] at hlt
        exact lt_irrefl _ hlt
      rw [if_neg haddr]
      have hsz : ∀ x ∈ kvs.map Prod.snd, sizeOf x ≤ m := by
        intro x hx
        obtain ⟨kv, hkv, hkv2⟩ := List.mem_map.mp hx
        have hkvlt := List.sizeOf_lt_of_mem hkv
        obtain ⟨k1, v1⟩ := kv
        simp only at hkv2
        subst hkv2
        simp only [Jdata.jrec.sizeOf_spec, Prod.mk.sizeOf_spec] at hv hkvlt
        omega
      have hsup2 : ∀ x ∈ kvs.map Prod.snd, ∀ b ∈ (addr :: anc), ∃ u,
          Represents store b u ∧ sizeOf x < sizeOf u := by
        intro x hx b hb
        rcases List.mem_cons.mp hb with hb | hb
        · subst hb
          refine ⟨Jdata.jrec kvs, Represents.objR b fields kvs hn hk hf, ?_⟩
          obtain ⟨kv, hkv, hkv2⟩ := List.mem_map.mp hx
          have hkvlt := List.sizeOf_lt_of_mem hkv
          obtain ⟨k1, v1⟩ := kv
          simp only at hkv2
          subst hkv2
          simp only [Jdata.jrec.sizeOf_spec, Prod.mk.sizeOf_spec] at hkvlt ⊢
          omega
        · obtain ⟨u, hu, hlt⟩ := hsup b hb
          refine ⟨u, hu, ?_⟩
          obtain ⟨kv, hkv, hkv2⟩ := List.mem_map.mp hx
          have hkvlt := List.sizeOf_lt_of_mem hkv
          obtain ⟨k1, v1⟩ := kv
          simp only at hkv2
          subst hkv2
          simp only [Jdata.jrec.sizeOf_spec, Prod.mk.sizeOf_spec] at hlt hkvlt
          omega
      have hnd2 : (addr :: anc).Nodup := List.nodup_cons.mpr ⟨haddr, hnd⟩
      have hcon2 : ∀ b ∈ (addr :: anc), ∃ nn, store[b]? = some nn ∧
          containerNode nn = true := by
        intro b hb
        rcases List.mem_cons.mp hb with hb | hb
        · subst hb
          exact ⟨Node.objN fields, getNode_some hn (by simp), rfl⟩
        · exact hcon b hb
      have hcount2 : store.length + 1 ≤ f + (addr :: anc).length := by
        simp only [List.length_cons]
        omega
      have hfields : ∀ (fields2 : List (String × Nat)) (kvs2 : List (String × Jdata)),
          fields2.map Prod.fst = kvs2.map Prod.fst →
          List.Forall₂ (Represents store) (fields2.map Prod.snd) (kvs2.map Prod.snd) →
          (∀ x ∈ kvs2.map Prod.snd, sizeOf x ≤ m) →
          (∀ x ∈ kvs2.map Prod.snd, ∀ b ∈ (addr :: anc), ∃ u,
            Represents store b u ∧ sizeOf x < sizeOf u) →
          serFields res store f (addr :: anc) pacc fields2 = .ok kvs2 := by
        intro fields2
        induction fields2 with
        | nil =>
          intro kvs2 hkeys _ _ _
          have : kvs2 = [] := by
            cases kvs2 with
            | nil => rfl
            | cons kv kvs3 => simp at hkeys
          subst this
          exact serFields_nil res store f (addr :: anc) pacc
        | cons g rest ih2 =>
          obtain ⟨k, a⟩ := g
          intro kvs2 hkeys hrep2 hszs hsups
          cases kvs2 with
          | nil => simp at hkeys
          | cons kv kvs3 =>
            obtain ⟨k2, x⟩ := kv
            simp only [List.map_cons, List.cons.injEq] at hkeys
            obtain ⟨hkk, hkrest⟩ := hkeys
            subst hkk
            simp only [List.map_cons] at hrep2
            cases hrep2 with
            | cons hx hrest =>
              rw [serFields_cons]
              rw [ih x (hszs x (by simp)) f (addr :: anc) (.key k :: pacc) a hx
                (hsups x (by simp)) hnd2 hcon2 hcount2]
              rw [ih2 kvs3 hkrest hrest (fun y hy => hszs y (by simp [hy]))
                (fun y hy => hsups y (by simp [hy]))]
              rfl
      rw [hfields fields kvs hk hf hsz hsup2]
      rfl

theorem serValue_complete (res : String) (store : List Node) (v : Jdata) (fuel : Nat)
    (anc : List Nat) (pacc : List PathSeg) (addr : Nat)
    (hrep : Represents store addr v)
    (hsup : ∀ b ∈ anc, ∃ u, Represents store b u ∧ sizeOf v < sizeOf u)
    (hnd : anc.Nodup)
    (hcon : ∀ b ∈ anc, ∃ nn, store[b]? = some nn ∧ containerNode nn = true)
    (hcount : store.length + 1 ≤ fuel + anc.length) :
    serValue res store fuel anc pacc addr = .ok v :=
  serValue_complete_aux res store (sizeOf v) v (le_refl _) fuel anc pacc addr
    hrep hsup hnd hcon hcount

theorem isSerializable_complete {res : String} {store : List Node} {root : Nat} {v : Jdata}
    (h : Represents store root v) : isSerializable res store root = .ok v := by
  rw [isSerializable]
  exact serValue_complete res store v (store.length + 1) [] [] root h
    (by intro b hb; simp at hb) List.nodup_nil (by intro b hb; simp at hb) (by simp)

theorem isSerializable_sound {res : String} {store : List Node} {root : Nat} {v : Jdata}
    (h : isSerializable res store root = .ok v) : Represents store root v :=
  serValue_sound res store (store.length + 1) [] [] root v h

theorem find?_key_split {pre rest : List (String × Nat)} {k : String} {a : Nat}
    (hnd : ((pre ++ (k, a) :: rest).map Prod.fst).Nodup) :
    (pre ++ (k, a) :: rest).find? (fun f => f.1 == k) = some (k, a) := by
  induction pre with
  | nil =>
    simp only [List.nil_append, List.find?_cons]
    rw [show (k == k) = true from by simp]
  | cons g pre ih =>
    obtain ⟨k0, a0⟩ := g
    simp only [List.cons_append, List.map_cons, List.nodup_cons] at hnd
    obtain ⟨hk0, hnd2⟩ := hnd
    have hk0k : (k0 == k) = false := by
      rw [beq_eq_false_iff_ne]
      intro he
      subst he
      exact hk0 (by simp [List.map_append])
    simp only [List.cons_append, List.find?_cons]
    rw [hk0k]
    exact ih hnd2

theorem getNode_of_some {store : List Node} {a : Nat} {n : Node}
    (h : store[a]? = some n) : getNode store a = n := by
  rw [getNode, h]
  rfl

theorem resolveFrom_idx {store : List Node} {addr : Nat} {elemsAll : List Nat}
    {i a : Nat} (haddr : getNode store addr = Node.arrN elemsAll)
    (hget : elemsAll[i]? = some a) :
    resolveFrom store addr [PathSeg.idx i] = some a := by
  rw [resolveFrom_cons, haddr]
  show (elemsAll[i]?).bind (fun a2 => resolveFrom store a2 []) = some a
  rw [hget]
  rfl

theorem resolveFrom_key {store : List Node} {addr : Nat}
    {fieldsAll : List (String × Nat)} {k : String} {a : Nat}
    (haddr : getNode store addr = Node.objN fieldsAll)
    (hfind : fieldsAll.find? (fun f => f.1 == k) = some (k, a)) :
    resolveFrom store addr [PathSeg.key k] = some a := by
  rw [resolveFrom_cons, haddr]
  show ((fieldsAll.find? (fun f => f.1 == k)).map Prod.snd).bind
      (fun a2 => resolveFrom store a2 []) = some a
  rw [hfind]
  rfl

mutual
theorem serValue_err (res : String) (store : List Node) (root : Nat) (fuel : Nat)
    (anc : List Nat) (pacc : List PathSeg) (addr : Nat) : ∀ e,
    serValue res store fuel anc pacc addr = .error e →
    WFStore store →
    resolveFrom store root pacc.reverse = some addr →
    (∀ b ∈ anc, ∃ q t, pacc.reverse = q ++ t ∧ t ≠ [] ∧
      resolveFrom store root q = some b) →
    anc.Nodup →
    (∀ b ∈ anc, ∃ nn, store[b]? = some nn ∧ containerNode nn = true) →
    store.length + 1 ≤ fuel + anc.length →
    PointsAtOffending store root e := by
  cases fuel with
  | zero =>
    intro e h hwf hres hanc hnd hcon hcount
    have hlen : anc.length ≤ store.length := nodup_bounded_length hnd (fun b hb => by
      obtain ⟨nn, hnn, _⟩ := hcon b hb
      exact getElem?_some_lt hnn)
    omega
  | succ f =>
    intro e h hwf hres hanc hnd hcon hcount
    cases hg : getNode store addr with
    | nullN => rw [serValue_succ_null hg] at h; cases h
    | boolN b => rw [serValue_succ_bool hg] at h; cases h
    | numN n => rw [serValue_succ_num hg] at h; cases h
    | strN s => rw [serValue_succ_str hg] at h; cases h
    | nanN =>
      rw [serValue_succ_nan hg] at h
      injection h with he
      subst he
      exact Or.inl ⟨addr, hres, by rw [hg]; rfl⟩
    | undefinedN =>
      rw [serValue_succ_undefined hg] at h
      injection h with he
      subst he
      exact Or.inl ⟨addr, hres, by rw [hg]; rfl⟩
    | funcN name =>
      rw [serValue_succ_func hg] at h
      injection h with he
      subst he
      exact Or.inl ⟨addr, hres, by rw [hg]; rfl⟩
    | promiseN o =>
      rw [serValue_succ_promise hg] at h
      injection h with he
      subst he
      exact Or.inl ⟨addr, hres, by rw [hg]; rfl⟩
    | otherN d =>
      rw [serValue_succ_other hg] at h
      injection h with he
      subst he
      exact Or.inl ⟨addr, hres, by rw [hg]; rfl⟩
    | arrN elems =>
      rw [serValue_succ_arr hg] at h
      by_cases hin : addr ∈ anc
      · rw [if_pos hin] at h
        injection h with he
        subst he
        obtain ⟨q, t, hsplit, htne, hq⟩ := hanc addr hin
        exact Or.inr ⟨q, t, addr, hsplit, htne, hq, hres⟩
      · rw [if_neg hin] at h
        cases hs : serElems res store f (addr :: anc) pacc 0 elems with
        | ok xs => rw [hs] at h; cases h
        | error e2 =>
          rw [hs] at h
          have h : (Except.error e2 : Except SerErr Jdata) = .error e := h
          injection h with he
          subst he
          refine serElems_err res store root f (addr :: anc) pacc 0 elems addr elems
            e2 hs hwf (getNode_some hg (by simp)) ⟨[], rfl, rfl⟩ hres ?_ ?_ ?_ ?_
          · intro b hb
            rcases List.mem_cons.mp hb with hb | hb
            · subst hb
              exact ⟨pacc.reverse, [], (List.append_nil _).symm, hres⟩
            · obtain ⟨q, t, hsplit, htne, hq⟩ := hanc b hb
              exact ⟨q, t, hsplit, hq⟩
          · exact List.nodup_cons.mpr ⟨hin, hnd⟩
          · intro b hb
            rcases List.mem_cons.mp hb with hb | hb
            · subst hb
              exact ⟨Node.arrN elems, getNode_some hg (by simp), rfl⟩
            · exact hcon b hb
          · simp only [List.length_cons]
            omega
    | objN fields =>
      rw [serValue_succ_obj hg] at h
      by_cases hin : addr ∈ anc
      · rw [if_pos hin] at h
        injection h with he
        subst he
        obtain ⟨q, t, hsplit, htne, hq⟩ := hanc addr hin
        exact Or.inr ⟨q, t, addr, hsplit, htne, hq, hres⟩
      · rw [if_neg hin] at h
        cases hs : serFields res store f (addr :: anc) pacc fields with
        | ok kvs => rw [hs] at h; cases h
        | error e2 =>
          rw [hs] at h
          have h : (Except.error e2 : Except SerErr Jdata) = .error e := h
          injection h with he
          subst he
          refine serFields_err res store root f (addr :: anc) pacc fields addr fields
            e2 hs hwf (getNode_some hg (by simp)) ⟨[], rfl⟩ hres ?_ ?_ ?_ ?_
          · intro b hb
            rcases List.mem_cons.mp hb with hb | hb
            · subst hb
              exact ⟨pacc.reverse, [], (List.append_nil _).symm, hres⟩
            · obtain ⟨q, t, hsplit, htne, hq⟩ := hanc b hb
              exact ⟨q, t, hsplit, hq⟩
          · exact List.nodup_cons.mpr ⟨hin, hnd⟩
          · intro b hb
            rcases List.mem_cons.mp hb with hb | hb
            · subst hb
              exact ⟨Node.objN fields, getNode_some hg (by simp), rfl⟩
            · exact hcon b hb
          · simp only [List.length_cons]
            omega
termination_by (fuel, 0)

theorem serElems_err (res : String) (store : List Node) (root : Nat) (fuel : Nat)
    (anc : List Nat) (pacc : List PathSeg) (i : Nat) (elems : List Nat)
    (addr : Nat) (elemsAll : List Nat) : ∀ e,
    serElems res store fuel anc pacc i elems = .error e →
    WFStore store →
    store[addr]? = some (Node.arrN elemsAll) →
    (∃ pre, elemsAll = pre ++ elems ∧ pre.length = i) →
    resolveFrom store root pacc.reverse = some addr →
    (∀ b ∈ anc, ∃ q t, pacc.reverse = q ++ t ∧ resolveFrom store root q = some b) →
    anc.Nodup →
    (∀ b ∈ anc, ∃ nn, store[b]? = some nn ∧ containerNode nn = true) →
    store.length + 1 ≤ fuel + anc.length →
    PointsAtOffending store root e := by
  cases elems with
  | nil =>
    intro e h
    rw [serElems_nil] at h
    cases h
  | cons a rest =>
    intro e h hwf haddr hsplit hres hanc2 hnd hcon hcount
    rw [serElems_cons] at h
    obtain ⟨pre, hpre, hlen⟩ := hsplit
    have hget : elemsAll[i]? = some a := by
      rw [hpre, ← hlen]
      rw [List.getElem?_append_right (le_refl _)]
      simp
    have hchild : resolveFrom store root (PathSeg.idx i :: pacc).reverse = some a := by
      rw [List.reverse_cons, resolveFrom_append, hres]
      simp only [Option.some_bind]
      exact resolveFrom_idx (getNode_of_some haddr) hget
    cases hv : serValue res store fuel anc (.idx i :: pacc) a with
    | error e2 =>
      rw [hv] at h
      have h : (Except.error e2 : Except SerErr (List Jdata)) = .error e := h
      injection h with he
      subst he
      refine serValue_err res store root fuel anc (.idx i :: pacc) a e2 hv hwf hchild
        ?_ hnd hcon hcount
      intro b hb
      obtain ⟨q, t, hsp, hq⟩ := hanc2 b hb
      refine ⟨q, t ++ [PathSeg.idx i], ?_, by simp, hq⟩
      rw [List.reverse_cons, hsp, List.append_assoc]
    | ok x =>
      rw [hv] at h
      have h : (serElems res store fuel anc pacc (i + 1) rest).map
          (fun xs => x :: xs) = .error e := h
      cases hs : serElems res store fuel anc pacc (i + 1) rest with
      | ok xs => rw [hs] at h; cases h
      | error e2 =>
        rw [hs] at h
        have h : (Except.error e2 : Except SerErr (List Jdata)) = .error e := h
        injection h with he
        subst he
        refine serElems_err res store root fuel anc pacc (i + 1) rest addr elemsAll
          e2 hs hwf haddr ⟨pre ++ [a], ?_, ?_⟩ hres hanc2 hnd hcon hcount
        · rw [hpre, List.append_assoc]
          rfl
        · simp [hlen]
termination_by (fuel, 1 + elems.length)

theorem serFields_err (res : String) (store : List Node) (root : Nat) (fuel : Nat)
    (anc : List Nat) (pacc : List PathSeg) (fields : List (String × Nat))
    (addr : Nat) (fieldsAll : List (String × Nat)) : ∀ e,
    serFields res store fuel anc pacc fields = .error e →
    WFStore store →
    store[addr]? = some (Node.objN fieldsAll) →
    (∃ pre, fieldsAll = pre ++ fields) →
    resolveFrom store root pacc.reverse = some addr →
    (∀ b ∈ anc, ∃ q t, pacc.reverse = q ++ t ∧ resolveFrom store root q = some b) →
    anc.Nodup →
    (∀ b ∈ anc, ∃ nn, store[b]? = some nn ∧ containerNode nn = true) →
    store.length + 1 ≤ fuel + anc.length →
    PointsAtOffending store root e := by
  cases fields with
  | nil =>
    intro e h
    rw [serFields_nil] at h
    cases h
  | cons g rest =>
    obtain ⟨k, a⟩ := g
    intro e h hwf haddr hsplit hres hanc2 hnd hcon hcount
    rw [serFields_cons] at h
    obtain ⟨pre, hpre⟩ := hsplit
    have hfind : fieldsAll.find? (fun f => f.1 == k) = some (k, a) := by
      rw [hpre]
      exact find?_key_split (by rw [← hpre]; exact hwf addr fieldsAll haddr)
    have hchild : resolveFrom store root (PathSeg.key k :: pacc).reverse = some a := by
      rw [List.reverse_cons, resolveFrom_append, hres]
      simp only [Option.some_bind]
      exact resolveFrom_key (getNode_of_some haddr) hfind
    cases hv : serValue res store fuel anc (.key k :: pacc) a with
    | error e2 =>
      rw [hv] at h
      have h : (Except.error e2 : Except SerErr (List (String × Jdata))) = .error e := h
      injection h with he
      subst he
      refine serValue_err res store root fuel anc (.key k :: pacc) a e2 hv hwf hchild
        ?_ hnd hcon hcount
      intro b hb
      obtain ⟨q, t, hsp, hq⟩ := hanc2 b hb
      refine ⟨q, t ++ [PathSeg.key k], ?_, by simp, hq⟩
      rw [List.reverse_cons, hsp, List.append_assoc]
    | ok x =>
      rw [hv] at h
      have h : (serFields res store fuel anc pacc rest).map
          (fun xs => (k, x) :: xs) = .error e := h
      cases hs : serFields res store fuel anc pacc rest with
      | ok kvs => rw [hs] at h; cases h
      | error e2 =>
        rw [hs] at h
        have h : (Except.error e2 : Except SerErr (List (String × Jdata))) = .error e := h
        injection h with he
        subst he
        refine serFields_err res store root fuel anc pacc rest addr fieldsAll
          e2 hs hwf haddr ⟨pre ++ [(k, a)], ?_⟩ hres hanc2 hnd hcon hcount
        rw [hpre, List.append_assoc]
        rfl
termination_by (fuel, 1 + fields.length)
end

theorem isSerializable_err {res : String} {store : List Node} {root : Nat} {e : SerErr}
    (hwf : WFStore store) (h : isSerializable res store root = .error e) :
    PointsAtOffending store root e := by
  rw [isSerializable] at h
  exact serValue_err res store root (store.length + 1) [] [] root e h hwf rfl
    (by intro b hb; simp at hb) List.nodup_nil (by intro b hb; simp at hb) (by simp)

/-- Outcome of the alias matcher built by createMatchPath for one
specifier: a resolved path, no result (no alias pattern matched or no
candidate target existed), or an internal error it raised. -/
inductive MatchOutcome where
  | found (p : String)
  | notFound
  | raised (msg : String)

/-- Mirror of the resolvePath callback the loader installs on the
module-resolver plugin (loader.ts lines 65 to 75): with a matcher
present its result is returned as is, an error raised by the matcher
falls back to the default resolution strategy, and without a matcher the
default strategy is used. -/
def resolvePath (matchPath : Option (String → MatchOutcome))
    (defaultResolvePath : String → String → Option String)
    (sourcePath currentFile : String) : Option String :=
  match matchPath with
  | some mp =>
    match mp sourcePath with
    | .found p => some p
    | .notFound => none
    | .raised _ => defaultResolvePath sourcePath currentFile
  | none => defaultResolvePath sourcePath currentFile

/-- Successful result of tsconfig-paths loadConfig. -/
structure ConfigSuccess where
  absoluteBaseUrl : String
  paths : List (String × List String)

/-- Result of tsconfig-paths loadConfig. -/
inductive ConfigLoaderResult where
  | failed (message : String)
  | success (c : ConfigSuccess)

/-- Data of one plugin entry the loader registers. -/
inductive PluginSpec where
  | moduleResolver (extensions : List String)

/-- Options passed to the transform-session registration (loader.ts
lines 79 to 100). -/
structure RegisterOptions where
  callerIsServer : Bool
  presets : List String
  plugins : List PluginSpec
  rootMode : String
  ignore : List String
  compact : Bool
  extensions : List String

/-- Per-evaluation inputs together with the behavior of the external
collaborators: the resource path, the loader options, the alias
configuration load result, the semantics of the alias matcher and of the
default resolution strategy, the heap of the executed module's values,
and the outcome of compiling and loading the target module (the value of
its default export, or the failure thrown). -/
structure Env where
  resource : String
  options : Option (List String)
  configLoaderResult : ConfigLoaderResult
  matchPathSem : ConfigSuccess → String → List String → MatchOutcome
  defaultResolvePath : String → String → Option String
  store : List Node
  requireOutcome : Except Thrown Nat

/-- Process-wide mutable state the loader touches: the count of active
transform registrations, the options each register call received, how
many times the teardown ran, and the error stream. -/
structure PState where
  active : Nat
  registerCalls : List RegisterOptions
  revertCalls : Nat
  log : List String

/-- Default recognized extensions (loader.ts line 19). -/
def defaultExtensions : List String := [".js", ".jsx", ".ts", ".tsx"]

/-- Lines 47 to 50: a failed configuration result becomes null. -/
def configLoaderSuccessResult (env : Env) : Option ConfigSuccess :=
  match env.configLoaderResult with
  | .failed _ => none
  | .success c => some c

/-- Lines 52 to 57: the matcher exists exactly when configuration
loading succeeded. -/
def matchPathOf (env : Env) (extensions : List String) :
    Option (String → MatchOutcome) :=
  (configLoaderSuccessResult env).map fun c =>
    fun src => env.matchPathSem c src extensions

/-- Lines 59 to 77: the module-resolver plugin entry exists exactly when
configuration loading succeeded. -/
def moduleResolverOf (env : Env) (extensions : List String) : Option PluginSpec :=
  (configLoaderSuccessResult env).map fun _ => .moduleResolver extensions

/-- Lines 79 to 100: the options the loader passes to register, the
module-resolver plugin conditionally added. -/
def registerOptionsOf (env : Env) : RegisterOptions :=
  let extensions := env.options.getD defaultExtensions
  { callerIsServer := true
    presets := ["next/babel", "@babel/preset-env"]
    plugins := match moduleResolverOf env extensions with
      | some p => [p]
      | none => []
    rootMode := "upward-optional"
    ignore := []
    compact := true
    extensions := extensions }

/-- The resolution the registered pipeline applies to one specifier: the
module-resolver plugin's resolvePath when that plugin was registered,
otherwise the pipeline's default strategy. Models the dispatch of
babel-plugin-module-resolver over the registered plugin list. -/
def effectiveResolvePath (env : Env) (sourcePath currentFile : String) :
    Option String :=
  let extensions := env.options.getD defaultExtensions
  match (registerOptionsOf env).plugins with
  | [] => env.defaultResolvePath sourcePath currentFile
  | _ :: _ =>
    resolvePath (matchPathOf env extensions) env.defaultResolvePath
      sourcePath currentFile

/-- Message of the PrevalError thrown for a missing default export
(lines 112 to 114). -/
def noDefaultMsg : String := "No default export. Did you forget to `export default`?"

/-- The thrown PrevalError for a missing default export: an Error object,
so its display begins with the base Error name and it carries a stack. -/
def noDefaultThrown : Thrown :=
  .errObj "Error" noDefaultMsg ("Error: " ++ noDefaultMsg)

/-- The try block of the module-execution closure (lines 103 to 117):
compile and load the module, throw the missing-default PrevalError when
the default export is falsy, then await the default export. -/
def moduleTryResult (store : List Node) (requireOutcome : Except Thrown Nat) :
    Except Thrown Nat :=
  match requireOutcome with
  | .error t => .error t
  | .ok addr =>
    if falsyNode (getNode store addr) then .error noDefaultThrown
    else awaitValue store (store.length + 1) addr

/-- The diagnostic line console.error writes (line 121): the fixed tag,
the argument separator, and the failure's stack trace. -/
def diagLine (t : Thrown) : String := "[next-plugin-preval] " ++ t.stackText

/-- Message of the PrevalError the catch block raises (lines 124 to
126). -/
def failMsg (resource : String) (t : Thrown) : String :=
  "Failed to pre-evaluate \"" ++ resource ++ "\". " ++ t.display ++
    " See above for full stack trace."

/-- Errors the loader raises: the distinguished PrevalError kind, or the
serialization failure of the validator. -/
inductive LoaderErr where
  | preval (msg : String)
  | serialization (e : SerErr)

/-- The module-execution closure (lines 102 to 130): the try block runs;
on failure the catch block writes the diagnostic line when the thrown
value is a record with a stack property and wraps the failure into a
PrevalError with the resource path and the failure's display text; the
finally block reverts the transform registration on every path. -/
def execModule (resource : String) (store : List Node)
    (requireOutcome : Except Thrown Nat) (st : PState) :
    Except String Nat × PState :=
  match moduleTryResult store requireOutcome with
  | .ok addr =>
    (.ok addr, { st with active := st.active - 1, revertCalls := st.revertCalls + 1 })
  | .error t =>
    let st2 := if t.hasStack then { st with log := st.log ++ [diagLine t] } else st
    (.error (failMsg resource t),
      { st2 with active := st2.active - 1, revertCalls := st2.revertCalls + 1 })

/-- The core loader, _prevalLoader (loader.ts lines 40 to 140): load the
alias configuration, register the transform session with the
conventional options, execute the module with teardown on every path,
validate the resolved value, and emit the fragment wrapping the
double-encoded payload. -/
def prevalLoader (env : Env) (st : PState) : Except LoaderErr String × PState :=
  let st1 : PState :=
    { st with
      active := st.active + 1
      registerCalls := st.registerCalls ++ [registerOptionsOf env] }
  let r := execModule env.resource env.store env.requireOutcome st1
  (match r.1 with
  | .error msg => .error (.preval msg)
  | .ok addr =>
    match isSerializable env.resource env.store addr with
    | .error e => .error (.serialization e)
    | .ok t => .ok (mkFragment (String.mk (jsonChars t))), r.2)

/-- The environment changed only by wrapping the default export in a
thenable already settled on the original value. -/
def promiseWrap (env : Env) (addr : Nat) : Env :=
  { env with
    store := env.store ++ [.promiseN (.ok addr)]
    requireOutcome := .ok env.store.length }

/-- One string occurs inside another. -/
def containsSub (m sub : String) : Prop :=
  ∃ pre suf : List Char, m.toList = pre ++ sub.toList ++ suf

theorem execModule_state (resource : String) (store : List Node)
    (ro : Except Thrown Nat) (st : PState) :
    ((execModule resource store ro st).2).revertCalls = st.revertCalls + 1 ∧
    ((execModule resource store ro st).2).active = st.active - 1 ∧
    ((execModule resource store ro st).2).registerCalls = st.registerCalls := by
  rw [execModule]
  cases moduleTryResult store ro with
  | ok addr => exact ⟨rfl, rfl, rfl⟩
  | error t =>
    cases hs : t.hasStack <;> simp [hs]

theorem prevalLoader_state (env : Env) (st : PState) :
    (prevalLoader env st).2
      = (execModule env.resource env.store env.requireOutcome
          { st with active := st.active + 1
                    registerCalls := st.registerCalls ++ [registerOptionsOf env] }).2 := rfl

/-- C1: for every evaluation, whatever the outcomes of configuration
loading, compilation, the default-export check and the awaited
computation, the transform-session teardown runs exactly once, and the
process-wide registration is back to its prior level by the time the
loader returns a fragment or raises. -/
theorem c1_teardown_exactly_once (env : Env) (st : PState) :
    ((prevalLoader env st).2).revertCalls = st.revertCalls + 1 ∧
    ((prevalLoader env st).2).active = st.active := by
  have hs := execModule_state env.resource env.store env.requireOutcome
    { st with active := st.active + 1
              registerCalls := st.registerCalls ++ [registerOptionsOf env] }
  rw [prevalLoader_state]
  refine ⟨hs.1, ?_⟩
  rw [hs.2.1]
  show st.active + 1 - 1 = st.active
  omega

/-- C4 counterexample: a specifier for which the alias matcher finds no
result (no pattern match or no existing candidate), while the default
strategy would resolve it: resolvePath returns no path instead of the
default strategy's result. -/
theorem c4_counterexample :
    resolvePath (some fun _ => MatchOutcome.notFound)
      (fun _ _ => some "/resolved/default.js") "@lib/x" "/app/index.ts" = none ∧
    (fun (_ : String) (_ : String) => some "/resolved/default.js") "@lib/x" "/app/index.ts"
      = some "/resolved/default.js" ∧
    resolvePath (some fun _ => MatchOutcome.notFound)
      (fun _ _ => some "/resolved/default.js") "@lib/x" "/app/index.ts"
      ≠ (fun (_ : String) (_ : String) => some "/resolved/default.js") "@lib/x" "/app/index.ts" := by
  refine ⟨rfl, rfl, ?_⟩
  intro h
  cases h

/-- C4 amended: resolvePath falls back to the default specifier
resolution exactly when the alias matcher raises an internal error, and
also when no matcher was built; when the matcher finds a path that path
is returned, and when it finds nothing resolvePath returns no path,
leaving the specifier untouched rather than consulting the default
strategy. -/
theorem c4_resolvePath_fallback (mp : String → MatchOutcome)
    (d : String → String → Option String) (s c : String) :
    (∀ p, mp s = .found p → resolvePath (some mp) d s c = some p) ∧
    (mp s = .notFound → resolvePath (some mp) d s c = none) ∧
    (∀ m, mp s = .raised m → resolvePath (some mp) d s c = d s c) ∧
    resolvePath none d s c = d s c := by
  refine ⟨?_, ?_, ?_, rfl⟩
  · intro p h
    rw [resolvePath, h]
  · intro h
    rw [resolvePath, h]
  · intro m h
    rw [resolvePath, h]

theorem c4_resolvePath_fallback_witness :
    ((fun _ => MatchOutcome.raised "matcher blew up") "@lib/x" = .raised "matcher blew up") ∧
    resolvePath (some fun _ => MatchOutcome.raised "matcher blew up")
      (fun _ _ => some "/resolved/default.js") "@lib/x" "/app/index.ts"
      = (fun (_ : String) (_ : String) => some "/resolved/default.js") "@lib/x" "/app/index.ts" :=
  ⟨rfl, (c4_resolvePath_fallback (fun _ => MatchOutcome.raised "matcher blew up")
    (fun _ _ => some "/resolved/default.js") "@lib/x" "/app/index.ts").2.2.1
    "matcher blew up" rfl⟩

/-- C7: when loading the path-alias configuration fails, no alias-rewrite
plugin is registered in the transform pipeline, every specifier resolves
by the default strategy, and the miss is not surfaced: the loader's whole
behavior is insensitive to the failure's message. -/
theorem c7_config_miss (env : Env) (st : PState) (m : String)
    (hc : env.configLoaderResult = .failed m) :
    (registerOptionsOf env).plugins = [] ∧
    ((prevalLoader env st).2).registerCalls
      = st.registerCalls ++ [registerOptionsOf env] ∧
    (∀ s c, effectiveResolvePath env s c = env.defaultResolvePath s c) ∧
    (∀ m2, prevalLoader { env with configLoaderResult := .failed m2 } st
      = prevalLoader env st) := by
  have hplug : (registerOptionsOf env).plugins = [] := by
    rw [registerOptionsOf]
    simp [moduleResolverOf, configLoaderSuccessResult, hc]
  refine ⟨hplug, ?_, ?_, ?_⟩
  · rw [prevalLoader_state]
    exact (execModule_state _ _ _ _).2.2
  · intro s c
    rw [effectiveResolvePath]
    simp only [hplug]
  · intro m2
    have hro : registerOptionsOf { env with configLoaderResult := .failed m2 }
        = registerOptionsOf env := by
      rw [registerOptionsOf, registerOptionsOf]
      simp [moduleResolverOf, configLoaderSuccessResult, hc]
    rw [prevalLoader, prevalLoader, hro]

theorem c7_config_miss_witness :
    (Env.mk "/app/data.preval.ts" none (.failed "no tsconfig")
      (fun _ _ _ => MatchOutcome.notFound) (fun _ _ => none) [] (.ok 0)).configLoaderResult
      = .failed "no tsconfig" ∧
    (registerOptionsOf (Env.mk "/app/data.preval.ts" none (.failed "no tsconfig")
      (fun _ _ _ => MatchOutcome.notFound) (fun _ _ => none) [] (.ok 0))).plugins = [] :=
  ⟨rfl, (c7_config_miss (Env.mk "/app/data.preval.ts" none (.failed "no tsconfig")
    (fun _ _ _ => MatchOutcome.notFound) (fun _ _ => none) [] (.ok 0))
    (PState.mk 0 [] 0 []) "no tsconfig" rfl).1⟩

theorem prevalLoader_error (env : Env) (st : PState) (t : Thrown)
    (ht : moduleTryResult env.store env.requireOutcome = .error t) :
    (prevalLoader env st).1 = .error (.preval (failMsg env.resource t)) ∧
    ((prevalLoader env st).2).log
      = (if t.hasStack then st.log ++ [diagLine t] else st.log) := by
  cases hs : t.hasStack <;>
    simp [prevalLoader, execModule, ht, hs]

theorem prevalLoader_ok (env : Env) (st : PState) (root : Nat)
    (hexec : moduleTryResult env.store env.requireOutcome = .ok root) :
    (prevalLoader env st).1
      = (match isSerializable env.resource env.store root with
        | .error e => .error (.serialization e)
        | .ok t => .ok (mkFragment (String.mk (jsonChars t)))) := by
  simp [prevalLoader, execModule, hexec]

theorem toList_append_str (a b : String) : (a ++ b).toList = a.toList ++ b.toList := by
  show (a ++ b).data = a.data ++ b.data
  exact String.data_append a b

theorem failMsg_toList (resource : String) (t : Thrown) :
    (failMsg resource t).toList
      = ("Failed to pre-evaluate \"").toList ++ resource.toList ++ ("\". ").toList
        ++ t.display.toList ++ (" See above for full stack trace.").toList := by
  rw [failMsg]
  simp [toList_append_str, List.append_assoc]

theorem failMsg_mentions_resource (resource : String) (t : Thrown) :
    containsSub (failMsg resource t) resource := by
  refine ⟨("Failed to pre-evaluate \"").toList,
    ("\". ").toList ++ t.display.toList ++ (" See above for full stack trace.").toList, ?_⟩
  rw [failMsg_toList]
  simp [List.append_assoc]

theorem failMsg_mentions_display (resource : String) (t : Thrown) :
    containsSub (failMsg resource t) t.display := by
  refine ⟨("Failed to pre-evaluate \"").toList ++ resource.toList ++ ("\". ").toList,
    (" See above for full stack trace.").toList, ?_⟩
  rw [failMsg_toList]
  try simp [List.append_assoc]

theorem failMsg_mentions_noDefault (resource : String) :
    containsSub (failMsg resource noDefaultThrown) "No default export" := by
  refine ⟨("Failed to pre-evaluate \"").toList ++ resource.toList ++ ("\". Error: ").toList,
    (". Did you forget to `export default`? See above for full stack trace.").toList, ?_⟩
  rw [failMsg_toList]
  rw [show (noDefaultThrown.display).toList = ("Error: ").toList
      ++ ("No default export").toList ++ (". Did you forget to `export default`?").toList
    from rfl]
  rw [show ("\". Error: ").toList = ("\". ").toList ++ ("Error: ").toList from rfl]
  rw [show (". Did you forget to `export default`? See above for full stack trace.").toList
      = (". Did you forget to `export default`?").toList
        ++ (" See above for full stack trace.").toList from rfl]
  simp [List.append_assoc]

/-- C5: a target module that loads but exposes no default export makes
the loader fail with the distinguished PrevalError kind, whose message
mentions the missing default export. -/
theorem c5_missing_default (env : Env) (st : PState) (addr : Nat)
    (hro : env.requireOutcome = .ok addr)
    (hnode : getNode env.store addr = Node.undefinedN) :
    (prevalLoader env st).1 = .error (.preval (failMsg env.resource noDefaultThrown)) ∧
    containsSub (failMsg env.resource noDefaultThrown) "No default export" := by
  have ht : moduleTryResult env.store env.requireOutcome = .error noDefaultThrown := by
    rw [moduleTryResult.eq_def, hro]
    simp [hnode, falsyNode]
  exact ⟨(prevalLoader_error env st noDefaultThrown ht).1,
    failMsg_mentions_noDefault env.resource⟩

theorem c5_missing_default_witness :
    (Env.mk "/app/no-default.preval.ts" none (.failed "no tsconfig")
      (fun _ _ _ => MatchOutcome.notFound) (fun _ _ => none) [] (.ok 0)).requireOutcome
      = .ok 0 ∧
    getNode (Env.mk "/app/no-default.preval.ts" none (.failed "no tsconfig")
      (fun _ _ _ => MatchOutcome.notFound) (fun _ _ => none) [] (.ok 0)).store 0
      = Node.undefinedN ∧
    (prevalLoader (Env.mk "/app/no-default.preval.ts" none (.failed "no tsconfig")
        (fun _ _ _ => MatchOutcome.notFound) (fun _ _ => none) [] (.ok 0))
      (PState.mk 0 [] 0 [])).1
      = .error (.preval (failMsg "/app/no-default.preval.ts" noDefaultThrown)) :=
  ⟨rfl, rfl, (c5_missing_default (Env.mk "/app/no-default.preval.ts" none
    (.failed "no tsconfig") (fun _ _ _ => MatchOutcome.notFound) (fun _ _ => none) []
    (.ok 0)) (PState.mk 0 [] 0 []) 0 rfl rfl).1⟩

/-- C9: a default export that exists but is falsy (zero, false, the
empty string, null, or a non-finite number) is rejected with the same
missing-default-export PrevalError, although the module does define a
default export. -/
theorem c9_falsy_default (env : Env) (st : PState) (addr : Nat)
    (hro : env.requireOutcome = .ok addr)
    (hf : falsyNode (getNode env.store addr) = true) :
    (prevalLoader env st).1 = .error (.preval (failMsg env.resource noDefaultThrown)) ∧
    containsSub (failMsg env.resource noDefaultThrown) "No default export" := by
  have ht : moduleTryResult env.store env.requireOutcome = .error noDefaultThrown := by
    rw [moduleTryResult.eq_def, hro]
    simp [hf]
  exact ⟨(prevalLoader_error env st noDefaultThrown ht).1,
    failMsg_mentions_noDefault env.resource⟩

theorem c9_falsy_default_witness :
    (Env.mk "/app/zero.preval.ts" none (.failed "no tsconfig")
      (fun _ _ _ => MatchOutcome.notFound) (fun _ _ => none) [Node.numN 0] (.ok 0)).requireOutcome
      = .ok 0 ∧
    falsyNode (getNode (Env.mk "/app/zero.preval.ts" none (.failed "no tsconfig")
      (fun _ _ _ => MatchOutcome.notFound) (fun _ _ => none) [Node.numN 0] (.ok 0)).store 0)
      = true ∧
    (prevalLoader (Env.mk "/app/zero.preval.ts" none (.failed "no tsconfig")
        (fun _ _ _ => MatchOutcome.notFound) (fun _ _ => none) [Node.numN 0] (.ok 0))
      (PState.mk 0 [] 0 [])).1
      = .error (.preval (failMsg "/app/zero.preval.ts" noDefaultThrown)) :=
  ⟨rfl, rfl, (c9_falsy_default (Env.mk "/app/zero.preval.ts" none
    (.failed "no tsconfig") (fun _ _ _ => MatchOutcome.notFound) (fun _ _ => none)
    [Node.numN 0] (.ok 0)) (PState.mk 0 [] 0 []) 0 rfl rfl).1⟩

/-- C6 counterexample: a module whose exported computation rejects with a
plain (stack-less) value: the loader raises the PrevalError, but no
diagnostic line is written to the error stream, refuting the claim that
one diagnostic line is written for every rejecting module. -/
theorem c6_counterexample :
    moduleTryResult [Node.promiseN (.error (.rawValue "boom"))] (.ok 0)
      = .error (.rawValue "boom") ∧
    (prevalLoader (Env.mk "/app/rejects.preval.ts" none (.failed "no tsconfig")
        (fun _ _ _ => MatchOutcome.notFound) (fun _ _ => none)
        [Node.promiseN (.error (.rawValue "boom"))] (.ok 0))
      (PState.mk 0 [] 0 [])).1
      = .error (.preval (failMsg "/app/rejects.preval.ts" (.rawValue "boom"))) ∧
    ((prevalLoader (Env.mk "/app/rejects.preval.ts" none (.failed "no tsconfig")
        (fun _ _ _ => MatchOutcome.notFound) (fun _ _ => none)
        [Node.promiseN (.error (.rawValue "boom"))] (.ok 0))
      (PState.mk 0 [] 0 [])).2).log = [] := by
  have ht : moduleTryResult [Node.promiseN (.error (.rawValue "boom"))] (.ok 0)
      = .error (.rawValue "boom") := rfl
  have h := prevalLoader_error (Env.mk "/app/rejects.preval.ts" none (.failed "no tsconfig")
    (fun _ _ _ => MatchOutcome.notFound) (fun _ _ => none)
    [Node.promiseN (.error (.rawValue "boom"))] (.ok 0)) (PState.mk 0 [] 0 [])
    (.rawValue "boom") ht
  exact ⟨ht, h.1, by rw [h.2]; rfl⟩

/-- C6 amended: whenever compilation throws or the exported computation
rejects, the loader raises the PrevalError whose message embeds the
resource path and the failure's display text; the single diagnostic line
with the fixed tag and the failure's trace is written to the error
stream before the error is raised exactly when the failure value is a
record carrying a stack property; for stack-less failures no diagnostic
line is written. -/
theorem c6_execution_failure (env : Env) (st : PState) (t : Thrown)
    (ht : moduleTryResult env.store env.requireOutcome = .error t) :
    (prevalLoader env st).1 = .error (.preval (failMsg env.resource t)) ∧
    containsSub (failMsg env.resource t) env.resource ∧
    containsSub (failMsg env.resource t) t.display ∧
    (t.hasStack = true →
      ((prevalLoader env st).2).log
        = st.log ++ ["[next-plugin-preval] " ++ t.stackText]) ∧
    (t.hasStack = false → ((prevalLoader env st).2).log = st.log) := by
  obtain ⟨h1, h2⟩ := prevalLoader_error env st t ht
  refine ⟨h1, failMsg_mentions_resource env.resource t,
    failMsg_mentions_display env.resource t, ?_, ?_⟩
  · intro hs
    rw [h2, if_pos hs]
    rfl
  · intro hs
    rw [h2, if_neg (by simp [hs])]

theorem c6_execution_failure_witness :
    moduleTryResult [Node.promiseN (.error (.errObj "Error" "fetch failed"
        "Error: fetch failed\n    at getData"))] (.ok 0)
      = .error (.errObj "Error" "fetch failed" "Error: fetch failed\n    at getData") ∧
    ((prevalLoader (Env.mk "/app/fails.preval.ts" none (.failed "no tsconfig")
        (fun _ _ _ => MatchOutcome.notFound) (fun _ _ => none)
        [Node.promiseN (.error (.errObj "Error" "fetch failed"
          "Error: fetch failed\n    at getData"))] (.ok 0))
      (PState.mk 0 [] 0 [])).2).log
      = [] ++ ["[next-plugin-preval] " ++ (Thrown.errObj "Error" "fetch failed"
          "Error: fetch failed\n    at getData").stackText] :=
  ⟨rfl, ((c6_execution_failure (Env.mk "/app/fails.preval.ts" none (.failed "no tsconfig")
    (fun _ _ _ => MatchOutcome.notFound) (fun _ _ => none)
    [Node.promiseN (.error (.errObj "Error" "fetch failed"
      "Error: fetch failed\n    at getData"))] (.ok 0))
    (PState.mk 0 [] 0 []) (.errObj "Error" "fetch failed"
      "Error: fetch failed\n    at getData") rfl).2.2.2.1) rfl⟩

theorem awaitValue_succ_eq (store : List Node) (fuel addr : Nat) :
    awaitValue store (fuel + 1) addr
      = (match getNode store addr with
        | .promiseN (.error t) => .error t
        | .promiseN (.ok a) => awaitValue store fuel a
        | _ => .ok addr) := by
  rw [awaitValue.eq_def]

theorem awaitValue_nonpromise {store : List Node} {addr : Nat}
    (hg : isPromiseNode (getNode store addr) = false) (fuel : Nat) :
    awaitValue store (fuel + 1) addr = .ok addr := by
  rw [awaitValue_succ_eq]
  cases hgn : getNode store addr with
  | promiseN o =>
    rw [hgn] at hg
    simp [isPromiseNode] at hg
  | nullN => rfl
  | undefinedN => rfl
  | boolN b => rfl
  | numN n => rfl
  | nanN => rfl
  | strN s => rfl
  | arrN elems => rfl
  | objN fields => rfl
  | funcN name => rfl
  | otherN d => rfl

theorem awaitValue_promise_ok {store : List Node} {addr a : Nat}
    (hg : getNode store addr = .promiseN (.ok a)) (fuel : Nat) :
    awaitValue store (fuel + 1) addr = awaitValue store fuel a := by
  rw [awaitValue_succ_eq, hg]

theorem getNode_append_last (store : List Node) (n : Node) :
    getNode (store ++ [n]) store.length = n := by
  rw [getNode, List.getElem?_append_right (le_refl _)]
  simp

/-- C2: for every value built only from plain string-keyed records,
ordered sequences, strings, finite numbers, booleans and null that the
module execution resolves to, the loader returns the fragment wrapping
the double-encoded payload for that value, and decoding the fragment
(stripping the wrapper, reading the embedded string literal, parsing the
structural text) yields a value deep-equal to the original. -/
theorem c2_fragment_roundtrip (env : Env) (st : PState) (v : Jdata) (root : Nat)
    (hexec : moduleTryResult env.store env.requireOutcome = .ok root)
    (hrep : Represents env.store root v) :
    (prevalLoader env st).1 = .ok (mkFragment (String.mk (jsonChars v))) ∧
    decodeFragment (mkFragment (String.mk (jsonChars v))) = some v := by
  refine ⟨?_, decodeFragment_mkFragment v⟩
  rw [prevalLoader_ok env st root hexec, isSerializable_complete hrep]

/-- Heap of the specification's scenario value, a record with a number
field and a sequence field. -/
def storeC2 : List Node :=
  [Node.objN [("a", 1), ("b", 2)], Node.numN 1,
    Node.arrN [3, 4, 5], Node.numN 1, Node.numN 2, Node.numN 3]

/-- The scenario value itself. -/
def vC2 : Jdata :=
  Jdata.jrec [("a", Jdata.jnum 1), ("b", Jdata.jarr [Jdata.jnum 1, Jdata.jnum 2, Jdata.jnum 3])]

theorem storeC2_represents : Represents storeC2 0 vC2 :=
  Represents.objR 0 [("a", 1), ("b", 2)]
    [("a", Jdata.jnum 1), ("b", Jdata.jarr [Jdata.jnum 1, Jdata.jnum 2, Jdata.jnum 3])] rfl rfl
    (List.Forall₂.cons (Represents.numR 1 1 rfl)
      (List.Forall₂.cons
        (Represents.arrR 2 [3, 4, 5] [Jdata.jnum 1, Jdata.jnum 2, Jdata.jnum 3] rfl
          (List.Forall₂.cons (Represents.numR 3 1 rfl)
            (List.Forall₂.cons (Represents.numR 4 2 rfl)
              (List.Forall₂.cons (Represents.numR 5 3 rfl) List.Forall₂.nil))))
        List.Forall₂.nil))

theorem c2_fragment_roundtrip_witness :
    moduleTryResult storeC2 (.ok 0) = .ok 0 ∧
    Represents storeC2 0 vC2 ∧
    decodeFragment (mkFragment (String.mk (jsonChars vC2))) = some vC2 :=
  ⟨rfl, storeC2_represents,
    (c2_fragment_roundtrip (Env.mk "/app/data.preval.ts" none (.failed "no tsconfig")
      (fun _ _ _ => MatchOutcome.notFound) (fun _ _ => none) storeC2 (.ok 0))
      (PState.mk 0 [] 0 []) vC2 0 rfl storeC2_represents).2⟩

/-- C8: two evaluations with the same resource, the same options, and
executions resolving to the same value produce byte-identical output
fragments: the encoder is deterministic with keys kept in encounter
order. -/
theorem c8_deterministic (env1 env2 : Env) (st1 st2 : PState) (v : Jdata) (a1 a2 : Nat)
    (hres : env1.resource = env2.resource) (hopt : env1.options = env2.options)
    (h1 : moduleTryResult env1.store env1.requireOutcome = .ok a1)
    (h2 : moduleTryResult env2.store env2.requireOutcome = .ok a2)
    (hr1 : Represents env1.store a1 v) (hr2 : Represents env2.store a2 v) :
    ∃ frag, (prevalLoader env1 st1).1 = .ok frag ∧
      (prevalLoader env2 st2).1 = .ok frag := by
  refine ⟨mkFragment (String.mk (jsonChars v)), ?_, ?_⟩
  · rw [prevalLoader_ok env1 st1 a1 h1, isSerializable_complete hr1]
  · rw [prevalLoader_ok env2 st2 a2 h2, isSerializable_complete hr2]

theorem c8_deterministic_witness :
    moduleTryResult [Node.strN "hi"] (.ok 0) = .ok 0 ∧
    Represents [Node.strN "hi"] 0 (Jdata.jstr "hi") ∧
    (∃ frag,
      (prevalLoader (Env.mk "/app/hi.preval.ts" none (.failed "no tsconfig")
        (fun _ _ _ => MatchOutcome.notFound) (fun _ _ => none) [Node.strN "hi"] (.ok 0))
        (PState.mk 0 [] 0 [])).1 = .ok frag ∧
      (prevalLoader (Env.mk "/app/hi.preval.ts" none (.failed "no tsconfig")
        (fun _ _ _ => MatchOutcome.notFound) (fun _ _ => none) [Node.strN "hi"] (.ok 0))
        (PState.mk 1 [] 1 [])).1 = .ok frag) :=
  ⟨rfl, Represents.strR 0 "hi" rfl,
    c8_deterministic (Env.mk "/app/hi.preval.ts" none (.failed "no tsconfig")
      (fun _ _ _ => MatchOutcome.notFound) (fun _ _ => none) [Node.strN "hi"] (.ok 0))
      (Env.mk "/app/hi.preval.ts" none (.failed "no tsconfig")
      (fun _ _ _ => MatchOutcome.notFound) (fun _ _ => none) [Node.strN "hi"] (.ok 0))
      (PState.mk 0 [] 0 []) (PState.mk 1 [] 1 []) (Jdata.jstr "hi") 0 0 rfl rfl rfl rfl
      (Represents.strR 0 "hi" rfl) (Represents.strR 0 "hi" rfl)⟩

/-- C10: a truthy, non-thenable, serializable default export is accepted;
awaiting it yields the value itself, and the loader returns the same
fragment it would return had the module exported a thenable already
settled on that value. -/
theorem c10_non_thenable (env : Env) (st : PState) (addr : Nat) (v : Jdata)
    (hro : env.requireOutcome = .ok addr)
    (htruthy : falsyNode (getNode env.store addr) = false)
    (hnp : isPromiseNode (getNode env.store addr) = false)
    (hrep : Represents env.store addr v) :
    (prevalLoader env st).1 = .ok (mkFragment (String.mk (jsonChars v))) ∧
    (prevalLoader (promiseWrap env addr) st).1
      = .ok (mkFragment (String.mk (jsonChars v))) := by
  constructor
  · have hexec : moduleTryResult env.store env.requireOutcome = .ok addr := by
      rw [moduleTryResult.eq_def, hro]
      simp only [htruthy, Bool.false_eq_true, if_false]
      exact awaitValue_nonpromise hnp env.store.length
    rw [prevalLoader_ok env st addr hexec, isSerializable_complete hrep]
  · have hwrap : (promiseWrap env addr).store = env.store ++ [.promiseN (.ok addr)] := rfl
    have hrw : (promiseWrap env addr).requireOutcome = .ok env.store.length := rfl
    have hgroot : getNode (promiseWrap env addr).store env.store.length
        = .promiseN (.ok addr) := by
      rw [hwrap]
      exact getNode_append_last env.store _
    have hlen : (promiseWrap env addr).store.length = env.store.length + 1 := by
      rw [hwrap, List.length_append]
      rfl
    have hgaddr : getNode (promiseWrap env addr).store addr = getNode env.store addr := by
      rw [hwrap]
      exact getNode_append (repr_valid hrep)
    have hexec2 : moduleTryResult (promiseWrap env addr).store
        (promiseWrap env addr).requireOutcome = .ok addr := by
      rw [moduleTryResult.eq_def, hrw]
      show (if falsyNode (getNode (promiseWrap env addr).store env.store.length) = true
          then Except.error noDefaultThrown
          else awaitValue (promiseWrap env addr).store
            ((promiseWrap env addr).store.length + 1) env.store.length) = Except.ok addr
      rw [show falsyNode (getNode (promiseWrap env addr).store env.store.length) = false from
        by rw [hgroot]; rfl]
      simp only [Bool.false_eq_true, if_false]
      rw [hlen]
      rw [awaitValue_promise_ok hgroot]
      rw [awaitValue_nonpromise (by rw [hgaddr]; exact hnp)]
    rw [prevalLoader_ok (promiseWrap env addr) st addr hexec2,
      isSerializable_complete (by rw [hwrap]; exact represents_append hrep)]

theorem c10_non_thenable_witness :
    (Env.mk "/app/plain.preval.ts" none (.failed "no tsconfig")
      (fun _ _ _ => MatchOutcome.notFound) (fun _ _ => none)
      [Node.strN "data"] (.ok 0)).requireOutcome = .ok 0 ∧
    falsyNode (getNode [Node.strN "data"] 0) = false ∧
    isPromiseNode (getNode [Node.strN "data"] 0) = false ∧
    Represents [Node.strN "data"] 0 (Jdata.jstr "data") ∧
    (prevalLoader (promiseWrap (Env.mk "/app/plain.preval.ts" none (.failed "no tsconfig")
        (fun _ _ _ => MatchOutcome.notFound) (fun _ _ => none)
        [Node.strN "data"] (.ok 0)) 0) (PState.mk 0 [] 0 [])).1
      = .ok (mkFragment (String.mk (jsonChars (Jdata.jstr "data")))) :=
  ⟨rfl, rfl, rfl, Represents.strR 0 "data" rfl,
    (c10_non_thenable (Env.mk "/app/plain.preval.ts" none (.failed "no tsconfig")
      (fun _ _ _ => MatchOutcome.notFound) (fun _ _ => none)
      [Node.strN "data"] (.ok 0)) (PState.mk 0 [] 0 []) 0 (Jdata.jstr "data")
      rfl rfl rfl (Represents.strR 0 "data" rfl)).2⟩

/-- C3: every resolved value containing a callable, a circular
reference, or any other non-data construct is rejected by the
serializability validation with an error whose path points at the
offending location, and the loader never returns an output fragment for
such a value. -/
theorem c3_validator_rejects (res : String) (store : List Node) (root : Nat)
    (hwf : WFStore store) (hbad : ContainsBad store root) :
    (∃ e, isSerializable res store root = .error e ∧ PointsAtOffending store root e) ∧
    (∀ env st, env.store = store → env.resource = res →
      moduleTryResult store env.requireOutcome = .ok root →
      ∀ frag, (prevalLoader env st).1 ≠ .ok frag) := by
  have herr : ∃ e, isSerializable res store root = .error e := by
    cases hres : isSerializable res store root with
    | ok t => exact absurd hbad (repr_not_bad (isSerializable_sound hres))
    | error e => exact ⟨e, rfl⟩
  obtain ⟨e, he⟩ := herr
  refine ⟨⟨e, he, isSerializable_err hwf he⟩, ?_⟩
  intro env st hsto hres2 hexec frag hok
  subst hsto
  subst hres2
  rw [prevalLoader_ok env st root hexec, he] at hok
  cases hok

/-- Heap of the specification's rejection scenario, a record holding a
callable under the key fn. -/
def storeC3 : List Node := [Node.objN [("fn", 1)], Node.funcN "fn"]

theorem storeC3_wf : WFStore storeC3 := by
  intro a fields h
  rcases a with _ | _ | a2
  · simp only [storeC3, List.getElem?_cons_zero, Option.some_inj] at h
    injection h with hf
    subst hf
    simp
  · simp only [storeC3, List.getElem?_cons_succ, List.getElem?_cons_zero,
      Option.some_inj] at h
    cases h
  · simp only [storeC3, List.getElem?_cons_succ] at h
    cases h

theorem storeC3_bad : ContainsBad storeC3 0 := by
  refine Or.inl ⟨[PathSeg.key "fn"], 1, ?_, rfl⟩
  exact resolveFrom_key (show getNode storeC3 0 = Node.objN [("fn", 1)] from rfl)
    (show ([("fn", 1)] : List (String × Nat)).find? (fun f => f.1 == "fn")
      = some ("fn", 1) from rfl)

theorem c3_validator_rejects_witness :
    WFStore storeC3 ∧ ContainsBad storeC3 0 ∧
    (∃ e, isSerializable "/app/fn.preval.ts" storeC3 0 = .error e ∧
      PointsAtOffending storeC3 0 e) :=
  ⟨storeC3_wf, storeC3_bad,
    (c3_validator_rejects "/app/fn.preval.ts" storeC3 0 storeC3_wf storeC3_bad).1⟩

end Preval
